import Mathlib

/-!
Verification development for the archive ingestion and security-validation
subsystem of the movie_tool repository (an Electron image/video viewer).

The TypeScript sources are shallowly embedded here:
* `FileNameHandler` (zipSecurity): `sanitizeFileName`, `normalizeFileName`,
  `generateMeaningfulFileName`, `hasGarbledCharacters`, `decodeZipFileName`.
* `ZipBombDetector` (zipSecurity): `validateEntry`, `detectZipBomb`.
* `ZipHandler` (zipHandler, latest revision): `extractFile` resolution and
  checks, `filterMediaFiles`, `validateZip`'s `suspiciousFiles` field.
* `TempFileManager` (tempFileManager): `ensureDiskSpace` / `saveTempFile`.

Modelling conventions:
* JavaScript strings are modelled as `List Char` at code-point level (the
  inputs exercised by the claims are ASCII, where JS UTF-16 units coincide
  with code points).
* Node's `path` module is modelled with POSIX semantics (`normalize`,
  `basename`, `extname`, `isAbsolute`).
* JS floating-point divisions (compression ratios) are modelled exactly in
  `ℚ`; 32-bit integer operations (`<<`, `&`) are modelled with explicit
  wrap-around on `Int`.
* Filesystem effects are abstracted: archive member bytes are a field of the
  entry (`none` models a failed decompression), and the temp-file cache is a
  list of tracked records.
-/

namespace MovieTool

/-- JS strings as lists of characters. -/
abbrev Str := List Char

/-- Does the string start with a dot. -/
def startsDot : Str → Bool
  | c :: _ => c = '.'
  | [] => false

/-- Does the string start with a slash. -/
def startsSlash : Str → Bool
  | c :: _ => c = '/'
  | [] => false

/-- Whether the string contains the two-character substring `..`. -/
def hasDD : Str → Bool
  | [] => false
  | c :: rest => (c = '.' && startsDot rest) || hasDD rest

/-- Model of `String.prototype.replace(/\.\./g, '__')`: replace every (non-overlapping,
leftmost-first) occurrence of `..` with `__`. -/
def replaceDotDot : Str → Str
  | [] => []
  | c :: rest =>
    if c = '.' ∧ startsDot rest = true then
      match rest with
      | _ :: rest2 => '_' :: '_' :: replaceDotDot rest2
      | [] => [c]
    else c :: replaceDotDot rest

/-- Model of `String.prototype.split('/')`. Always returns a non-empty list of
slash-free segments. -/
def splitSlash : Str → List Str
  | [] => [[]]
  | c :: rest =>
    match splitSlash rest with
    | [] => [[c]]
    | seg :: segs => if c = '/' then [] :: seg :: segs else (c :: seg) :: segs

/-- Join segments with `/` separators (inverse of `splitSlash`). -/
def joinSlash : List Str → Str
  | [] => []
  | [s] => s
  | s :: rest => s ++ '/' :: joinSlash rest

/-- Segment resolution loop of Node's `path.posix.normalize`
(`normalizeString`): drops empty and `.` segments; a `..` segment pops the
last kept segment, except that in a relative path leading `..`s accumulate
and in an absolute path they are discarded at the root. -/
def normSegs (isAbs : Bool) : List Str → List Str → List Str
  | acc, [] => acc.reverse
  | acc, seg :: rest =>
    if seg = [] ∨ seg = ['.'] then normSegs isAbs acc rest
    else if seg = ['.', '.'] then
      match acc with
      | top :: acc2 =>
        if top = ['.', '.'] then normSegs isAbs (seg :: top :: acc2) rest
        else normSegs isAbs acc2 rest
      | [] => if isAbs then normSegs isAbs [] rest else normSegs isAbs [seg] rest
    else normSegs isAbs (seg :: acc) rest

/-- Node `path.posix.normalize`. -/
def pathNormalize (s : Str) : Str :=
  if s = [] then ['.']
  else
    let isAbs := startsSlash s
    let trail := s.getLast? = some '/'
    let core := joinSlash (normSegs isAbs [] (splitSlash s))
    if core = [] then
      if isAbs then ['/'] else if trail then ['.', '/'] else ['.']
    else
      let p := if trail then core ++ ['/'] else core
      if isAbs then '/' :: p else p

/-- Remove trailing slashes (used by Node `basename`). -/
def dropTrailingSlashes (s : Str) : Str :=
  (s.reverse.dropWhile (fun c => c = '/')).reverse

/-- Node `path.posix.basename(p)`: the last path segment, ignoring trailing
slashes. -/
def basenameRaw (s : Str) : Str :=
  ((dropTrailingSlashes s).reverse.takeWhile (fun c => c ≠ '/')).reverse

/-- Node `path.posix.extname(p)`: from the last `.` of the base name to the
end; empty when there is no dot, when the dot is the leading character of the
base name (dotfile), or when the base name is `..`. -/
def extname (s : Str) : Str :=
  let b := basenameRaw s
  if b = ['.', '.'] then []
  else
    let after := b.reverse.takeWhile (fun c => c ≠ '.')
    if after.length = b.length then []
    else
      let i := b.length - after.length - 1
      if i = 0 then [] else b.drop i

/-- Node `path.posix.basename(p, ext)`: the base name, with `ext` stripped
when it is a proper suffix of it. -/
def basenameExt (s ext : Str) : Str :=
  let b := basenameRaw s
  if b ≠ ext ∧ ext.isSuffixOf b then b.take (b.length - ext.length) else b

/-- Characters removed by `String.prototype.trim` (ECMAScript WhiteSpace and
LineTerminator). -/
def jsIsSpace (c : Char) : Bool :=
  c.toNat = 0x9 ∨ c.toNat = 0xA ∨ c.toNat = 0xB ∨ c.toNat = 0xC ∨
  c.toNat = 0xD ∨ c.toNat = 0x20 ∨ c.toNat = 0xA0 ∨ c.toNat = 0x1680 ∨
  (0x2000 ≤ c.toNat ∧ c.toNat ≤ 0x200A) ∨ c.toNat = 0x2028 ∨
  c.toNat = 0x2029 ∨ c.toNat = 0x202F ∨ c.toNat = 0x205F ∨
  c.toNat = 0x3000 ∨ c.toNat = 0xFEFF

/-- Model of `String.prototype.trim`. -/
def jsTrim (s : Str) : Str :=
  ((s.dropWhile jsIsSpace).reverse.dropWhile jsIsSpace).reverse

/-- Membership in `FileNameHandler.FORBIDDEN_CHARS = /[<>:"|?*\x00-\x1f]/g`. -/
def isForbiddenChar (c : Char) : Bool :=
  c = '<' ∨ c = '>' ∨ c = ':' ∨ c = '"' ∨ c = '|' ∨ c = '?' ∨ c = '*' ∨
  c.toNat ≤ 0x1F

/-- Replacement of one character under `.replace(FORBIDDEN_CHARS, '_')`. -/
def forbiddenToUnderscore (c : Char) : Char :=
  if isForbiddenChar c then '_' else c

/-- Model of `FileNameHandler.RESERVED_NAMES`. -/
def RESERVED_NAMES : List Str :=
  ["CON", "PRN", "AUX", "NUL",
   "COM1", "COM2", "COM3", "COM4", "COM5", "COM6", "COM7", "COM8", "COM9",
   "LPT1", "LPT2", "LPT3", "LPT4", "LPT5", "LPT6", "LPT7", "LPT8",
   "LPT9"].map String.toList

/-- Model of `FileNameHandler.MAX_FILENAME_LENGTH`. -/
def MAX_FILENAME_LENGTH : Nat := 255

/-- The normalize / replace-forbidden / trim prefix of
`FileNameHandler.normalizeFileName` (everything before the length cap). -/
def preTruncate (fileName : Str) : Str :=
  jsTrim ((pathNormalize fileName).map forbiddenToUnderscore)

/-- The length-capping step of `FileNameHandler.normalizeFileName`:
`baseName.substring(0, MAX_FILENAME_LENGTH - ext.length) + ext`.
JS `substring` clamps a negative bound to 0, exactly like `Nat` subtraction
composed with `List.take`. -/
def truncateName (n : Str) : Str :=
  if n.length > MAX_FILENAME_LENGTH then
    let ext := extname n
    let base := basenameExt n ext
    base.take (MAX_FILENAME_LENGTH - ext.length) ++ ext
  else n

/-- The upper-cased, extension-stripped base name used by the reserved-name
check of `normalizeFileName`. -/
def upperBaseName (n : Str) : Str :=
  (basenameExt n (extname n)).map Char.toUpper

/-- Model of `FileNameHandler.normalizeFileName` (the `encoding` argument is never
passed by `sanitizeFileName` and its `shift_jis` branch is the identity, so
it is omitted). -/
def normalizeFileName (fileName : Str) : Str :=
  let n3 := preTruncate fileName
  let n4 := truncateName n3
  if RESERVED_NAMES.contains (upperBaseName n4) then '_' :: n4 else n4

/-- Drive-letter removal `.replace(/^[a-zA-Z]:/, '')`. -/
def stripDriveLetter (l : Str) : Str :=
  match l with
  | c :: d :: rest => if c.isAlpha ∧ d = ':' then rest else l
  | _ => l

/-- Node `path.posix.relative('/', p)` for an absolute `p`: the resolved path
without its leading (and trailing) slashes. -/
def relativeFromRoot (s : Str) : Str :=
  dropTrailingSlashes ((pathNormalize s).dropWhile (fun c => c = '/'))

/-- The traversal-defanging prefix of `FileNameHandler.sanitizeFileName`
(everything before the call to `normalizeFileName`). -/
def preSanitize (fileName : Str) : Str :=
  let s1 := replaceDotDot fileName
  let s2 := s1.dropWhile (fun c => c = '/')
  let s3 := stripDriveLetter s2
  if startsSlash s3 then relativeFromRoot s3 else s3

/-- Model of `FileNameHandler.sanitizeFileName`. -/
def sanitizeFileName (fileName : Str) : Str :=
  normalizeFileName (preSanitize fileName)

/-! ### Garbled-name recovery (`generateMeaningfulFileName` and friends) -/

/-- The alternatives of the media-extension regex
`/\.(jpg|jpeg|png|gif|bmp|webp|mp4|avi|mkv|mov)$/i`. -/
def mediaExtAlts : List Str :=
  ["jpg", "jpeg", "png", "gif", "bmp", "webp", "mp4", "avi", "mkv",
   "mov"].map String.toList

/-- Leftmost match of `/\.(jpg|...|mov)$/i`: the first position holding a dot
whose entire remainder is (case-insensitively) one of the alternatives; the
matched text keeps its original case. -/
def findMediaExt : Str → Option Str
  | [] => none
  | c :: rest =>
    if c = '.' ∧ mediaExtAlts.contains (rest.map Char.toLower) then
      some (c :: rest)
    else findMediaExt rest

/-- Maximal digit runs of a string, left to right (`match(/\d+/g)`); the
accumulator carries the current run reversed. -/
def digitRunsAux : Str → Str → List Str
  | [], acc => if acc = [] then [] else [acc.reverse]
  | c :: rest, acc =>
    if c.isDigit then digitRunsAux rest (c :: acc)
    else if acc = [] then digitRunsAux rest []
    else acc.reverse :: digitRunsAux rest []

/-- Model of `garbledName.match(/\d+/g)` (with `[]` for `null`). -/
def digitRuns (s : Str) : List Str := digitRunsAux s []

/-- The reducer `(a, b) => a.length >= b.length ? a : b`. -/
def pickLonger (a b : Str) : Str := if a.length ≥ b.length then a else b

/-- Model of `matches.reduce((a, b) => a.length >= b.length ? a : b)`: the first
longest element. -/
def longestRun : List Str → Option Str
  | [] => none
  | x :: xs => some (xs.foldl pickLonger x)

/-- Model of `String.prototype.padStart(3, '0')`. -/
def padStart3 (s : Str) : Str :=
  List.replicate (3 - s.length) '0' ++ s

/-- Wrap an integer into signed 32-bit range (JS `ToInt32`). -/
def toInt32 (x : Int) : Int :=
  let m := x % 4294967296
  if m < 2147483648 then m else m - 4294967296

/-- One step of the JS hash loop
`hash = ((hash << 5) - hash + charCodeAt(i)) & 0xffffffff`: `<<` operates on
int32 and `x & 0xffffffff` is `ToInt32(x) & -1 = ToInt32(x)`; the
intermediate subtraction and addition are exact in double precision. -/
def jsHashStep (h : Int) (code : Nat) : Int :=
  toInt32 (toInt32 (h * 32) - h + code)

/-- The deterministic string hash of `generateMeaningfulFileName`. -/
def jsHash (s : Str) : Int :=
  s.foldl (fun h c => jsHashStep h c.toNat) 0

/-- Model of `Math.abs(hash % 999)` with JS truncated remainder. -/
def hashMod999 (s : Str) : Nat := ((jsHash s).tmod 999).natAbs

/-- Decimal digits of a natural number. -/
def natToStr (n : Nat) : Str := Nat.toDigits 10 n

/-- Model of `FileNameHandler.generateMeaningfulFileName`. -/
def generateMeaningfulFileName (garbledName : Str) : Str :=
  let ext := (findMediaExt garbledName).getD ".jpg".toList
  let pageNumber :=
    match longestRun (digitRuns garbledName) with
    | some r => padStart3 r
    | none => padStart3 (natToStr (hashMod999 garbledName))
  "page_".toList ++ pageNumber ++ ext

/-- Model of `FileNameHandler.hasGarbledCharacters`: a control / replacement character,
or strictly more than 70% non-ASCII characters. The float threshold
`0.7 * str.length` is modelled exactly in the rationals. -/
def hasGarbledCharacters (s : Str) : Bool :=
  s.any (fun c =>
    c.toNat = 0xFFFD ∨ c.toNat ≤ 0x8 ∨
    (0xE ≤ c.toNat ∧ c.toNat ≤ 0x1F) ∨ c.toNat = 0x7F) ||
  decide (10 * (s.filter (fun c => 0x7F < c.toNat)).length > 7 * s.length)

/-! ### Archive entries and the threat detector (`ZipBombDetector`) -/

/-- One archive member's metadata (`AdmZip.IZipEntry` as consumed by this
subsystem), plus its decompressed bytes (`none` models `zip.readFile`
returning `null`). -/
structure ZipEntry where
  entryName : Str
  size : Nat
  compressedSize : Nat
  isDirectory : Bool
  time : Int
  data : Option (List Nat)
deriving DecidableEq

/-- Make a plain file entry with the given name and sizes. -/
def mkEntry (name : String) (size compressedSize : Nat) : ZipEntry :=
  ⟨name.toList, size, compressedSize, false, 0, some []⟩

/-- Model of `entry.header.size / entry.header.compressedSize` guarded by
`compressedSize > 0`, exact in `ℚ`. -/
def entryRatioQ (e : ZipEntry) : ℚ :=
  if e.compressedSize > 0 then (e.size : ℚ) / (e.compressedSize : ℚ) else 0

inductive Severity | low | medium | high | critical
deriving DecidableEq

/-- Issue tags standing for the human-readable issue strings pushed by
`validateEntry` (the text itself is irrelevant to the claims). -/
inductive EntryIssue
  | sizeOverLimit | ratioAbnormal | ratioWatchLevel | badPath | nameTooLong
deriving DecidableEq

structure EntryValidation where
  valid : Bool
  issues : List EntryIssue
  severity : Severity
deriving DecidableEq

/-- Model of `ZipBombDetector.MAX_COMPRESSION_RATIO`. -/
def MAX_COMPRESSION_RAT : ℚ := 100

/-- Model of `ZipBombDetector.SUSPICIOUS_RATIO_THRESHOLD`. -/
def SUSPICIOUS_RAT_THRESHOLD : ℚ := 500

/-- Model of `ZipBombDetector.MAX_TOTAL_EXTRACTED_SIZE` (1 GiB). -/
def MAX_TOTAL_EXTRACTED_SIZE : Nat := 1073741824

/-- Model of `ZipBombDetector.MAX_FILE_COUNT`. -/
def MAX_FILE_COUNT : Nat := 10000

/-- Model of `ZipBombDetector.MAX_NESTED_DEPTH`. -/
def MAX_NESTED_DEPTH : Nat := 10

/-- The per-entry 500 MiB cap `500 * 1024 * 1024` used by `validateEntry` and
`ZipHandler.MAX_FILE_SIZE`. -/
def MAX_FILE_SIZE : Nat := 524288000

/-- Model of `ZipBombDetector.validateEntry`, mutation by mutation: `severity` starts
`low`; an oversized file sets `critical`; a ratio above 100 sets `critical`
(the `> 500` else-branch can only fire when the ratio also exceeds 100, so it
is dead); a name changed by sanitization raises non-critical severity to
`high`; an over-long name raises (or lowers) non-critical severity to
`medium`. -/
def validateEntry (e : ZipEntry) : EntryValidation :=
  let r := entryRatioQ e
  let sev1 := if e.size > MAX_FILE_SIZE then Severity.critical else .low
  let sev2 :=
    if r > MAX_COMPRESSION_RAT then Severity.critical
    else if r > SUSPICIOUS_RAT_THRESHOLD then
      (if sev1 = .critical then Severity.critical else .high)
    else sev1
  let sev3 :=
    if sanitizeFileName e.entryName ≠ e.entryName then
      (if sev2 = .critical then Severity.critical else .high)
    else sev2
  let sev4 :=
    if e.entryName.length > 255 then
      (if sev3 = .critical then Severity.critical else .medium)
    else sev3
  let issues :=
    (if e.size > MAX_FILE_SIZE then [EntryIssue.sizeOverLimit] else []) ++
    (if r > MAX_COMPRESSION_RAT then [EntryIssue.ratioAbnormal]
     else if r > SUSPICIOUS_RAT_THRESHOLD then [EntryIssue.ratioWatchLevel]
     else []) ++
    (if sanitizeFileName e.entryName ≠ e.entryName then [EntryIssue.badPath]
     else []) ++
    (if e.entryName.length > 255 then [EntryIssue.nameTooLong] else [])
  ⟨decide (sev4 ≠ .critical), issues, sev4⟩

/-- Model of `entry.entryName.split('/').length - 1` = the number of `/` characters. -/
def entryDepth (e : ZipEntry) : Nat := e.entryName.count '/'

structure BombStatistics where
  totalFiles : Nat
  totalCompressedSize : Nat
  totalUncompressedSize : Nat
  averageRat : ℚ
  maxDepth : Nat
deriving DecidableEq

structure BombCheck where
  isSuspicious : Bool
  isBlocked : Bool
  reasonsCount : Nat
  statistics : BombStatistics
deriving DecidableEq

/-- Total uncompressed size of the archive. -/
def totalUncompressed (entries : List ZipEntry) : Nat :=
  (entries.map (fun e => e.size)).sum

/-- Total compressed size of the archive. -/
def totalCompressed (entries : List ZipEntry) : Nat :=
  (entries.map (fun e => e.compressedSize)).sum

/-- The aggregate `averageRatio` statistic, exact in `ℚ`. -/
def averageRatQ (entries : List ZipEntry) : ℚ :=
  if totalCompressed entries > 0 then
    (totalUncompressed entries : ℚ) / (totalCompressed entries : ℚ)
  else 0

/-- Model of `Math.max` accumulation of per-entry depths (initially 0). -/
def maxDepthOf (entries : List ZipEntry) : Nat :=
  (entries.map entryDepth).foldl max 0

/-- Model of `ZipBombDetector.detectZipBomb`. The per-entry loop counts `critical`
entries into `blockedFileCount` and `high` entries into
`suspiciousFileCount`; the whole-archive checks then increment
`blockedFileCount` for the entry-count, average-ratio and total-size limits
and `suspiciousFileCount` for the nesting limit. `reasons` strings are
modelled by their count. -/
def detectZipBomb (entries : List ZipEntry) : BombCheck :=
  let blockedFromEntries :=
    (entries.filter (fun e => (validateEntry e).severity = .critical)).length
  let suspiciousFromEntries :=
    (entries.filter (fun e => (validateEntry e).severity = .high)).length
  let avg := averageRatQ entries
  let stats : BombStatistics :=
    ⟨entries.length, totalCompressed entries, totalUncompressed entries,
     avg, maxDepthOf entries⟩
  let blockedCount := blockedFromEntries +
    (if entries.length > MAX_FILE_COUNT then 1 else 0) +
    (if avg > MAX_COMPRESSION_RAT then 1 else 0) +
    (if totalUncompressed entries > MAX_TOTAL_EXTRACTED_SIZE then 1 else 0)
  let suspiciousCount := suspiciousFromEntries +
    (if maxDepthOf entries > MAX_NESTED_DEPTH then 1 else 0)
  ⟨decide (suspiciousCount > 0) || decide (avg > SUSPICIOUS_RAT_THRESHOLD),
   decide (blockedCount > 0),
   blockedFromEntries + suspiciousFromEntries +
     (if entries.length > MAX_FILE_COUNT then 1 else 0) +
     (if avg > MAX_COMPRESSION_RAT then 1 else 0) +
     (if totalUncompressed entries > MAX_TOTAL_EXTRACTED_SIZE then 1 else 0) +
     (if maxDepthOf entries > MAX_NESTED_DEPTH then 1 else 0),
   stats⟩

/-! ### The archive reader (`ZipHandler`, latest revision) -/

/-- Model of `FileNameHandler.decodeZipFileName` (the `try` body cannot throw in this
model, so the `catch` branch is unreachable). -/
def decodeZipFileName (e : ZipEntry) : Str :=
  if hasGarbledCharacters e.entryName then
    generateMeaningfulFileName e.entryName
  else e.entryName

inductive ZipErrKind
  | corruptedArchive | fileTooLarge | zipBombDetected | encodingError
  | memoryInsufficient | diskSpaceInsufficient | permissionDenied
  | unsupportedCompression | passwordRequired | concurrentLimitExceeded
deriving DecidableEq

/-- Model of `zip.getEntry(name)`: exact entry-name lookup. -/
def getEntry (entries : List ZipEntry) (name : Str) : Option ZipEntry :=
  entries.find? (fun e => e.entryName = name)

/-- The three-stage entry resolution of `ZipHandler.extractFile`: direct
lookup, then the per-archive `pathMappingCache` (decoded path → original
entry name), then a full scan comparing decoded names. -/
def resolveEntry (entries : List ZipEntry) (mapping : List (Str × Str))
    (internalPath : Str) : Option ZipEntry :=
  match getEntry entries internalPath with
  | some e => some e
  | none =>
    match
      (match mapping.lookup internalPath with
       | some orig => getEntry entries orig
       | none => none) with
    | some e => some e
    | none => entries.find? (fun e => decodeZipFileName e = internalPath)

/-- Model of `ZipHandler.extractFile` (latest revision): resolve, then the
`MAX_FILE_SIZE` check, then the per-entry `validateEntry` re-check, then the
read (a `null` buffer is `CorruptedArchive`). -/
def extractFile (entries : List ZipEntry) (mapping : List (Str × Str))
    (internalPath : Str) : Except ZipErrKind (List Nat) :=
  match resolveEntry entries mapping internalPath with
  | none => .error .corruptedArchive
  | some e =>
    if e.size > MAX_FILE_SIZE then .error .fileTooLarge
    else if (validateEntry e).valid = false then .error .zipBombDetected
    else
      match e.data with
      | none => .error .corruptedArchive
      | some b => .ok b

inductive MediaType | image | video
deriving DecidableEq

/-- Model of `ZipHandler.SUPPORTED_IMAGE_EXTS`. -/
def SUPPORTED_IMAGE_EXTS : List Str :=
  ["jpg", "jpeg", "png", "gif", "webp", "bmp", "svg"].map String.toList

/-- Model of `ZipHandler.SUPPORTED_VIDEO_EXTS`. -/
def SUPPORTED_VIDEO_EXTS : List Str :=
  ["mp4", "avi", "mkv", "mov", "wmv", "flv", "webm"].map String.toList

/-- Model of `ZipHandler.isMediaFile`: `path.extname(...).toLowerCase().slice(1)`
against the two allow-lists. -/
def isMediaFile (filename : Str) : Option MediaType :=
  let ext := ((extname filename).map Char.toLower).drop 1
  if SUPPORTED_IMAGE_EXTS.contains ext then some .image
  else if SUPPORTED_VIDEO_EXTS.contains ext then some .video
  else none

/-- The per-entry size filter `options?.maxFileSize && size > maxFileSize`:
`none` models an absent option and JS truthiness makes a limit of `0`
behave as absent. -/
def sizeLimitHit (maxFileSize : Option Nat) (size : Nat) : Bool :=
  match maxFileSize with
  | some m => decide (m ≠ 0) && decide (size > m)
  | none => false

/-- The `ZipFileInfo` record built by `filterMediaFiles` (latest revision). -/
structure ZipFileInfo where
  path : Str
  name : Str
  type : MediaType
  size : Nat
  modified : Int
  zipPath : Str
  internalPath : Str
  isZipContent : Bool
  encodedPath : Str
  ratioQ : ℚ
  depth : Nat
  originalEntryName : Str
deriving DecidableEq

/-- Model of `ZipHandler.filterMediaFiles` (latest revision): skip directories and
non-media entries, apply the optional size filter, then build the descriptor
around `meaningfulPath = generateMeaningfulFileName(entry.entryName)`; the
display path is `[ZIP]<basename(zipPath)>/<meaningfulPath>`. (The
`decodeZipFileName` value computed by the source is unused, and the
`pathMappingCache` update is modelled separately by `scanMapping`.) -/
def filterMediaFiles (entries : List ZipEntry) (zipPath : Str)
    (maxFileSize : Option Nat) : List ZipFileInfo :=
  entries.filterMap (fun e =>
    if e.isDirectory then none
    else
      match isMediaFile e.entryName with
      | none => none
      | some mt =>
        if sizeLimitHit maxFileSize e.size then none
        else
          let meaningfulPath := generateMeaningfulFileName e.entryName
          some ⟨"[ZIP]".toList ++ basenameRaw zipPath ++ '/' :: meaningfulPath,
                basenameRaw meaningfulPath, mt, e.size, e.time, zipPath,
                meaningfulPath, true, sanitizeFileName meaningfulPath,
                entryRatioQ e, meaningfulPath.count '/', e.entryName⟩)

/-- The `pathMappingCache` entries written by one `filterMediaFiles` pass:
`meaningfulPath → original entry name` for each surviving entry (a later
duplicate key overwrites an earlier one in the real `Map`). -/
def scanMapping (entries : List ZipEntry) (maxFileSize : Option Nat) :
    List (Str × Str) :=
  entries.filterMap (fun e =>
    if e.isDirectory then none
    else
      match isMediaFile e.entryName with
      | none => none
      | some _ =>
        if sizeLimitHit maxFileSize e.size then none
        else some (generateMeaningfulFileName e.entryName, e.entryName))

/-- The fields of `ZipInfo` computed by `ZipHandler.validateZip` from the
entry list (path and filesystem metadata are passed through unchanged and
omitted here). -/
structure ZipInfoStats where
  fileCount : Nat
  mediaFileCount : Nat
  hasNestedFolders : Bool
  averageCompressionRat : ℚ
  suspiciousFiles : Nat
deriving DecidableEq

/-- Model of `ZipHandler.validateZip`'s statistics loop and result: in particular
`suspiciousFiles = securityCheck.isSuspicious ? 1 : 0`. -/
def validateZipStats (entries : List ZipEntry) : ZipInfoStats :=
  let securityCheck := detectZipBomb entries
  ⟨entries.length,
   (entries.filter (fun e => (isMediaFile e.entryName).isSome)).length,
   entries.any (fun e => decide (entryDepth e > 1)),
   averageRatQ entries,
   if securityCheck.isSuspicious then 1 else 0⟩

/-! ### The temporary extraction cache (`TempFileManager`) -/

/-- Model of `TempFileManager.MAX_TEMP_SIZE` (200 MiB). -/
def MAX_TEMP_SIZE : Nat := 209715200

/-- One tracked `TempFileInfo` record. -/
structure TempFileInfo where
  path : Str
  created : Int
  size : Nat
  accessed : Int
  zipSource : Str
deriving DecidableEq

/-- Total tracked size (`getTempDirectoryStats().totalSize`). -/
def totalTrackedSize (files : List TempFileInfo) : Nat :=
  (files.map (fun f => f.size)).sum

/-- Stable insertion by ascending last-access time. -/
def insertByAccess (f : TempFileInfo) :
    List TempFileInfo → List TempFileInfo
  | [] => [f]
  | g :: rest =>
    if f.accessed ≤ g.accessed then f :: g :: rest
    else g :: insertByAccess f rest

/-- The LRU ordering `sort((a, b) => a.accessed - b.accessed)` (stable, as
`Array.prototype.sort` is). -/
def sortByAccess (files : List TempFileInfo) : List TempFileInfo :=
  files.foldr insertByAccess []

/-- Number of files the eviction loop removes from the sorted list: it
deletes file after file, stopping as soon as the freed size reaches the
target (checked after each deletion) or the list is exhausted. -/
def evictCount (target : Nat) : List TempFileInfo → Nat
  | [] => 0
  | f :: rest =>
    if f.size ≥ target then 1 else 1 + evictCount (target - f.size) rest

/-- Model of `TempFileManager.ensureDiskSpace(requiredSize)` on the tracked-file list
(all tracked files are assumed present on disk): when the projected size
exceeds the 200 MiB cap, evict least-recently-accessed files first until the
freed size reaches `projected - MAX + MAX * 0.1` (10% headroom; `MAX * 0.1`
is the exact float `20971520`). Returns (remaining tracked files, evicted
files). -/
def ensureDiskSpace (files : List TempFileInfo) (requiredSize : Nat) :
    List TempFileInfo × List TempFileInfo :=
  let projected := totalTrackedSize files + requiredSize
  if projected > MAX_TEMP_SIZE then
    let sorted := sortByAccess files
    let target := projected - MAX_TEMP_SIZE + MAX_TEMP_SIZE / 10
    let evicted := sorted.take (evictCount target sorted)
    (files.filter (fun f => ! evicted.any (fun g => g.path == f.path)),
     evicted)
  else (files, [])

/-- Model of `TempFileManager.saveTempFile`: ensure headroom, then register the new
record (name generation, atomic write and permissions are filesystem
effects outside the model; `newPath` stands for the generated unique name
and `now` for the creation instant). -/
def saveTempFile (files : List TempFileInfo) (bufLen : Nat) (newPath : Str)
    (now : Int) (zipSource : Str) : List TempFileInfo :=
  (ensureDiskSpace files bufLen).1 ++ [⟨newPath, now, bufLen, now, zipSource⟩]

/-! ## Claim C9: a `maxFileSize` option of 0 disables the size filter -/

/-- C9. In `filterMediaFiles`, a `maxFileSize` option equal to `0` is falsy
under the guard `options?.maxFileSize && size > maxFileSize`, so it behaves
exactly like an absent option: every qualifying media entry is retained. -/
theorem filterMediaFiles_maxFileSize_zero (entries : List ZipEntry)
    (zipPath : Str) :
    filterMediaFiles entries zipPath (some 0) =
      filterMediaFiles entries zipPath none := by
  unfold filterMediaFiles
  refine List.filterMap_congr fun e _ => ?_
  simp [sizeLimitHit]

/-! ## Claim C10: `validateZip` reports at most one suspicious file -/

/-- C10. The `suspiciousFiles` field of the `ZipInfo` built by `validateZip`
is `securityCheck.isSuspicious ? 1 : 0`: it is always `0` or `1`, and it is
`1` exactly when the whole-archive assessment is suspicious — never the
number of individually suspicious entries. -/
theorem validateZip_suspiciousFiles_le_one (entries : List ZipEntry) :
    (validateZipStats entries).suspiciousFiles ≤ 1 ∧
    ((validateZipStats entries).suspiciousFiles = 1 ↔
      (detectZipBomb entries).isSuspicious = true) := by
  unfold validateZipStats
  by_cases h : (detectZipBomb entries).isSuspicious <;> simp [h]

/-! ## Claim C1: display-path uniqueness within one scan -/

/-- Two members in different directories carrying the same embedded page
number (the failing input for claim C1). -/
def c1Entries : List ZipEntry :=
  [mkEntry "dirA/001.jpg" 10 10, mkEntry "dirB/001.jpg" 10 10]

/-- C1 (code bug exhibit). `filterMediaFiles` derives the display path from
`generateMeaningfulFileName(entry.entryName)` for **every** entry, so the two
members `dirA/001.jpg` and `dirB/001.jpg` both receive the display path
`[ZIP]z.zip/page_001.jpg`: the returned display paths are not pairwise
distinct, although the source comments call `path` a unique identifier. -/
theorem filterMediaFiles_display_path_collision :
    (filterMediaFiles c1Entries ("z.zip".toList) none).map
        (fun f => f.path) =
      ["[ZIP]z.zip/page_001.jpg".toList, "[ZIP]z.zip/page_001.jpg".toList] ∧
    ¬ ((filterMediaFiles c1Entries ("z.zip".toList) none).map
        (fun f => f.path)).Nodup := by
  constructor
  · rfl
  · decide

/-! ## Claim C4: an oversized resolvable entry fails with `FileTooLarge` -/

/-- C4. In `extractFile`, the `MAX_FILE_SIZE` check runs after the entry is
resolved and before the per-entry threat assessment, so a resolvable entry
whose uncompressed size exceeds the 500 MiB cap fails with `FileTooLarge` —
not with `ZipBombDetected`, even though `validateEntry` would also rate such
an entry critical. -/
theorem extractFile_oversized_fileTooLarge (entries : List ZipEntry)
    (mapping : List (Str × Str)) (internalPath : Str) (e : ZipEntry)
    (hres : resolveEntry entries mapping internalPath = some e)
    (hsz : e.size > MAX_FILE_SIZE) :
    extractFile entries mapping internalPath =
      .error ZipErrKind.fileTooLarge := by
  unfold extractFile
  rw [hres]
  simp [hsz]

/-- Witness for C4 at a concrete archive: a single 600 MB member resolved by
direct name lookup. -/
theorem extractFile_oversized_fileTooLarge_witness :
    extractFile [mkEntry "big.jpg" 629145600 629145600] []
        ("big.jpg".toList) = .error ZipErrKind.fileTooLarge :=
  extractFile_oversized_fileTooLarge _ _ _
    (mkEntry "big.jpg" 629145600 629145600) (by decide) (by decide)

/-! ## Claim C2: which conditions make `validateEntry` critical -/

/-- C2 counterexample. The entry `../x.jpg` (10 bytes, ratio 1) has its name
changed by sanitization and triggers neither the size nor the ratio limit,
yet `validateEntry` rates it `high` — not `critical` — and leaves
`valid = true`, refuting the claim that a sanitization change alone yields
severity `critical`. -/
theorem validateEntry_sanitize_change_not_critical_cex :
    sanitizeFileName ("../x.jpg".toList) ≠ "../x.jpg".toList ∧
    ¬ (mkEntry "../x.jpg" 10 10).size > MAX_FILE_SIZE ∧
    ¬ entryRatioQ (mkEntry "../x.jpg" 10 10) > MAX_COMPRESSION_RAT ∧
    (validateEntry (mkEntry "../x.jpg" 10 10)).severity ≠ Severity.critical ∧
    (validateEntry (mkEntry "../x.jpg" 10 10)).valid = true := by
  have hr : entryRatioQ (mkEntry "../x.jpg" 10 10) = 1 := by
    norm_num [entryRatioQ, mkEntry]
  have c1 : ¬ (mkEntry "../x.jpg" 10 10).size > MAX_FILE_SIZE := by decide
  have c2 : ¬ ((1 : ℚ) > MAX_COMPRESSION_RAT) := by norm_num [MAX_COMPRESSION_RAT]
  have c3 : ¬ ((1 : ℚ) > SUSPICIOUS_RAT_THRESHOLD) := by
    norm_num [SUSPICIOUS_RAT_THRESHOLD]
  have c4 : sanitizeFileName (mkEntry "../x.jpg" 10 10).entryName ≠
      (mkEntry "../x.jpg" 10 10).entryName := by decide
  have c5 : ¬ ((mkEntry "../x.jpg" 10 10).entryName.length > 255) := by decide
  have hv : validateEntry (mkEntry "../x.jpg" 10 10) =
      ⟨true, [EntryIssue.badPath], Severity.high⟩ := by
    simp only [validateEntry, hr]
    simp [c1, c2, c3, c4, c5]
  refine ⟨by decide, c1, by rw [hr]; exact c2, ?_, ?_⟩ <;> rw [hv] <;> decide

/-- C2 (amended). `validateEntry` returns severity `critical` exactly when
the uncompressed size exceeds 500 MiB or the per-entry compression ratio
exceeds 100; `valid` is the negation of that. A name changed by sanitization
(with neither limit triggered) yields severity `high` (downgraded to
`medium` when the raw name also exceeds 255 characters) and `valid = true`. -/
theorem validateEntry_critical_iff (e : ZipEntry) :
    ((validateEntry e).severity = .critical ↔
      e.size > MAX_FILE_SIZE ∨ entryRatioQ e > MAX_COMPRESSION_RAT) ∧
    ((validateEntry e).valid = true ↔
      ¬ (e.size > MAX_FILE_SIZE ∨ entryRatioQ e > MAX_COMPRESSION_RAT)) ∧
    (sanitizeFileName e.entryName ≠ e.entryName →
      ¬ e.size > MAX_FILE_SIZE → ¬ entryRatioQ e > MAX_COMPRESSION_RAT →
      (validateEntry e).valid = true ∧
        ((validateEntry e).severity = .high ∨
         (validateEntry e).severity = .medium)) := by
  by_cases hA : e.size > MAX_FILE_SIZE <;>
  by_cases hB : entryRatioQ e > MAX_COMPRESSION_RAT <;>
  by_cases hB5 : entryRatioQ e > SUSPICIOUS_RAT_THRESHOLD <;>
  by_cases hD : sanitizeFileName e.entryName = e.entryName <;>
  by_cases hE : e.entryName.length > 255 <;>
  simp [validateEntry, hA, hB, hB5, hD, hE]

/-- Witness for the conditional part of C2: the entry `../w.png`
(20 bytes, ratio 2) has its name changed by sanitization and stays valid
with severity `high`. -/
theorem validateEntry_critical_iff_witness :
    (validateEntry (mkEntry "../w.png" 20 10)).valid = true ∧
      ((validateEntry (mkEntry "../w.png" 20 10)).severity = .high ∨
       (validateEntry (mkEntry "../w.png" 20 10)).severity = .medium) :=
  (validateEntry_critical_iff _).2.2 (by decide) (by decide)
    (by norm_num [entryRatioQ, mkEntry, MAX_COMPRESSION_RAT])

/-! ## Claim C3: the blocking conditions of `detectZipBomb` -/

/-- C3. `detectZipBomb` blocks exactly when the entry count exceeds 10,000,
the aggregate uncompressed-to-compressed ratio exceeds 100, the total
uncompressed size exceeds 1 GiB, or some entry is individually rated
`critical`; exceeding only the nesting-depth limit makes the archive
suspicious (but, by the first part, not blocked). -/
theorem detectZipBomb_blocked_iff (entries : List ZipEntry) :
    ((detectZipBomb entries).isBlocked = true ↔
      (entries.length > MAX_FILE_COUNT ∨
       averageRatQ entries > MAX_COMPRESSION_RAT ∨
       totalUncompressed entries > MAX_TOTAL_EXTRACTED_SIZE ∨
       ∃ e ∈ entries, (validateEntry e).severity = Severity.critical)) ∧
    (maxDepthOf entries > MAX_NESTED_DEPTH →
      (detectZipBomb entries).isSuspicious = true) := by
  constructor
  · have hA : (0 < (entries.filter
        (fun e => decide ((validateEntry e).severity = Severity.critical))).length)
        ↔ (∃ e ∈ entries, (validateEntry e).severity = Severity.critical) := by
      rw [← List.countP_eq_length_filter, List.countP_pos_iff]
      simp
    by_cases h1 : entries.length > MAX_FILE_COUNT <;>
    by_cases h2 : averageRatQ entries > MAX_COMPRESSION_RAT <;>
    by_cases h3 : totalUncompressed entries > MAX_TOTAL_EXTRACTED_SIZE <;>
    simp [detectZipBomb, h1, h2, h3] <;>
    first
      | exact hA
      | omega
  · intro hd
    simp only [detectZipBomb, hd]
    simp

/-- Witness for the conditional part of C3: a one-member archive nested 11
directories deep is flagged suspicious. -/
theorem detectZipBomb_blocked_iff_witness :
    (detectZipBomb [mkEntry "a/b/c/d/e/f/g/h/i/j/k/x.jpg" 10 10]).isSuspicious
      = true :=
  (detectZipBomb_blocked_iff _).2 (by decide)

/-! ## Claim C7: characterization of `generateMeaningfulFileName` -/

/-- The JS `reduce` over `pickLonger` returns its seed or a list element,
never shorter than the seed or any element. -/
theorem foldl_pickLonger_spec (xs : List Str) : ∀ a : Str,
    (xs.foldl pickLonger a = a ∨ xs.foldl pickLonger a ∈ xs) ∧
    a.length ≤ (xs.foldl pickLonger a).length ∧
    ∀ y ∈ xs, y.length ≤ (xs.foldl pickLonger a).length := by
  induction xs with
  | nil => exact fun a => ⟨Or.inl rfl, le_refl _, by simp⟩
  | cons x xs ih =>
    intro a
    obtain ⟨h1, h2, h3⟩ := ih (pickLonger a x)
    have hax : a.length ≤ (pickLonger a x).length ∧
        x.length ≤ (pickLonger a x).length := by
      unfold pickLonger
      split <;> omega
    refine ⟨?_, ?_, ?_⟩
    · rcases h1 with h | h
      · rw [List.foldl_cons, h]
        unfold pickLonger
        split
        · exact Or.inl rfl
        · exact Or.inr (List.mem_cons_self _ _)
      · exact Or.inr (List.mem_cons_of_mem _ h)
    · exact le_trans hax.1 h2
    · intro y hy
      rcases List.mem_cons.mp hy with rfl | hmem
      · exact le_trans hax.2 h2
      · exact h3 y hmem

/-- What a successful media-extension match returns: a suffix of the input
of the form `.` followed by (case-insensitively) one of the regex
alternatives. -/
theorem findMediaExt_spec (g : Str) : ∀ e, findMediaExt g = some e →
    ∃ rest, e = '.' :: rest ∧ rest.map Char.toLower ∈ mediaExtAlts ∧
      e <:+ g := by
  induction g with
  | nil => intro e h; simp [findMediaExt] at h
  | cons c g ih =>
    intro e h
    unfold findMediaExt at h
    split at h
    · rename_i hcond
      injection h with h
      subst h
      exact ⟨g, by rw [hcond.1], List.mem_of_elem_eq_true hcond.2,
        List.suffix_refl _⟩
    · obtain ⟨rest, hrest, hmem, hsuf⟩ := ih e h
      exact ⟨rest, hrest, hmem, hsuf.trans (List.suffix_cons c g)⟩

/-- C7. `generateMeaningfulFileName` is a pure function returning
`page_<NNN><ext>`: `<ext>` is the matched media extension (a suffix of the
raw name, a dot plus one of the media alternatives case-insensitively) or
`.jpg` when none matches; `<NNN>` is a longest digit run of the raw name
zero-padded to 3 digits, or, with no digits present, the deterministic JS
hash of the raw name modulo 999 zero-padded to 3 digits. The directory
structure of the raw name contributes nothing beyond those two components,
and two calls on the same name give the same result. -/
theorem generateMeaningfulFileName_spec (g : Str) :
    ∃ nnn ext,
      generateMeaningfulFileName g = "page_".toList ++ nnn ++ ext ∧
      ((∃ rest, ext = '.' :: rest ∧ rest.map Char.toLower ∈ mediaExtAlts ∧
          ext <:+ g) ∨
        (findMediaExt g = none ∧ ext = ".jpg".toList)) ∧
      ((∃ r ∈ digitRuns g, nnn = padStart3 r ∧
          ∀ r2 ∈ digitRuns g, r2.length ≤ r.length) ∨
        (digitRuns g = [] ∧ nnn = padStart3 (natToStr (hashMod999 g)))) ∧
      generateMeaningfulFileName g = generateMeaningfulFileName g := by
  have hgen : generateMeaningfulFileName g =
      "page_".toList ++
        (match longestRun (digitRuns g) with
         | some r => padStart3 r
         | none => padStart3 (natToStr (hashMod999 g))) ++
        ((findMediaExt g).getD ".jpg".toList) := rfl
  have hext : (∃ rest, (findMediaExt g).getD ".jpg".toList = '.' :: rest ∧
      rest.map Char.toLower ∈ mediaExtAlts ∧
      (findMediaExt g).getD ".jpg".toList <:+ g) ∨
      (findMediaExt g = none ∧
        (findMediaExt g).getD ".jpg".toList = ".jpg".toList) := by
    rcases he : findMediaExt g with _ | e
    · exact Or.inr ⟨rfl, rfl⟩
    · obtain ⟨rest, h1, h2, h3⟩ := findMediaExt_spec g e he
      exact Or.inl ⟨rest, by simpa using h1, h2, by simpa using h3⟩
  rcases hrun : digitRuns g with _ | ⟨x, xs⟩
  · refine ⟨padStart3 (natToStr (hashMod999 g)), _, ?_, hext, ?_, rfl⟩
    · rw [hgen, hrun]
      rfl
    · exact Or.inr ⟨rfl, rfl⟩
  · obtain ⟨h1, _, h3⟩ := foldl_pickLonger_spec xs x
    refine ⟨padStart3 (xs.foldl pickLonger x), _, ?_, hext, ?_, rfl⟩
    · rw [hgen, hrun]
      rfl
    · refine Or.inl ⟨xs.foldl pickLonger x, ?_, rfl, ?_⟩
      · rcases h1 with h | h
        · rw [h]; exact List.mem_cons_self _ _
        · exact List.mem_cons_of_mem _ h
      · intro r2 hr2
        rcases List.mem_cons.mp hr2 with rfl | hmem
        · exact (foldl_pickLonger_spec xs r2).2.1
        · exact h3 r2 hmem

/-! ## Claim C8: the temp-cache headroom eviction -/

/-- The LRU comparison key. -/
def accessLe (a b : TempFileInfo) : Prop := a.accessed ≤ b.accessed

theorem insertByAccess_perm (f : TempFileInfo) (l : List TempFileInfo) :
    (insertByAccess f l).Perm (f :: l) := by
  induction l with
  | nil => exact List.Perm.refl _
  | cons g rest ih =>
    unfold insertByAccess
    split
    · exact List.Perm.refl _
    · exact ((ih.cons g).trans (List.Perm.swap f g rest))

theorem sortByAccess_perm (l : List TempFileInfo) :
    (sortByAccess l).Perm l := by
  induction l with
  | nil => exact List.Perm.refl _
  | cons f rest ih =>
    exact (insertByAccess_perm f (sortByAccess rest)).trans (ih.cons f)

theorem insertByAccess_pairwise (f : TempFileInfo) (l : List TempFileInfo)
    (h : l.Pairwise accessLe) :
    (insertByAccess f l).Pairwise accessLe := by
  induction l with
  | nil => simp [insertByAccess, List.pairwise_cons]
  | cons g rest ih =>
    unfold insertByAccess
    split
    · rename_i hle
      refine List.pairwise_cons.mpr ⟨?_, h⟩
      intro b hb
      rcases List.mem_cons.mp hb with rfl | hb
      · exact hle
      · exact le_trans hle ((List.pairwise_cons.mp h).1 b hb)
    · rename_i hgt
      have hgf : accessLe g f := le_of_not_le hgt
      obtain ⟨hg, hrest⟩ := List.pairwise_cons.mp h
      refine List.pairwise_cons.mpr ⟨?_, ih hrest⟩
      intro b hb
      have hb2 : b ∈ f :: rest := (insertByAccess_perm f rest).mem_iff.mp hb
      rcases List.mem_cons.mp hb2 with rfl | h2
      · exact hgf
      · exact hg b h2

theorem sortByAccess_pairwise (l : List TempFileInfo) :
    (sortByAccess l).Pairwise accessLe := by
  induction l with
  | nil => exact List.Pairwise.nil
  | cons f rest ih => exact insertByAccess_pairwise f _ ih

/-- The eviction loop stops exactly when the freed size first reaches the
target (or the list runs out): every proper prefix frees strictly less, the
evicted prefix frees at least the target unless everything was evicted, and
the count never exceeds the list length. -/
theorem evictCount_spec : ∀ (l : List TempFileInfo) (target : Nat),
    0 < target →
    ((∀ k < evictCount target l, totalTrackedSize (l.take k) < target) ∧
     (totalTrackedSize (l.take (evictCount target l)) ≥ target ∨
       evictCount target l = l.length) ∧
     evictCount target l ≤ l.length) := by
  intro l
  induction l with
  | nil =>
    intro target ht
    refine ⟨?_, Or.inr rfl, by simp [evictCount]⟩
    intro k hk
    simp [evictCount] at hk
  | cons f rest ih =>
    intro target ht
    by_cases hf : f.size ≥ target
    · have he : evictCount target (f :: rest) = 1 := by
        rw [evictCount]
        simp [hf]
      have h1 : totalTrackedSize ((f :: rest).take 1) = f.size := by
        simp [totalTrackedSize]
      refine ⟨?_, Or.inl ?_, by rw [he]; simp⟩
      · intro k hk
        rw [he] at hk
        interval_cases k
        simpa [totalTrackedSize] using ht
      · rw [he]
        omega
    · have hfs : f.size < target := by omega
      have ht2 : 0 < target - f.size := by omega
      obtain ⟨ih1, ih2, ih3⟩ := ih (target - f.size) ht2
      have he : evictCount target (f :: rest) =
          1 + evictCount (target - f.size) rest := by
        rw [evictCount]
        simp [hf]
      have htake : ∀ j, totalTrackedSize ((f :: rest).take (j + 1)) =
          f.size + totalTrackedSize (rest.take j) := by
        intro j
        simp [totalTrackedSize]
      refine ⟨?_, ?_, by rw [he]; simp only [List.length_cons]; omega⟩
      · intro k hk
        rw [he] at hk
        rcases k with _ | j
        · simpa [totalTrackedSize] using ht
        · have hj : j < evictCount (target - f.size) rest := by omega
          have hlt := ih1 j hj
          rw [htake j]
          omega
      · rcases ih2 with h | h
        · left
          rw [he, Nat.add_comm 1, htake]
          omega
        · right
          rw [he, h]
          simp [Nat.add_comm]

/-- A subpermutation cannot track more bytes. -/
theorem subperm_totalTracked_le (l1 l2 : List TempFileInfo)
    (h : l1.Subperm l2) : totalTrackedSize l1 ≤ totalTrackedSize l2 := by
  obtain ⟨l, hperm, hsub⟩ := h
  calc totalTrackedSize l1 = totalTrackedSize l := by
        unfold totalTrackedSize
        exact ((hperm.map (fun f => f.size)).sum_eq).symm
    _ ≤ totalTrackedSize l2 := by
        unfold totalTrackedSize
        exact (hsub.map (fun f => f.size)).sum_le_sum (by simp)

/-- Splitting the tracked total along a Boolean filter. -/
theorem totalTracked_filter_split (p : TempFileInfo → Bool)
    (l : List TempFileInfo) :
    totalTrackedSize (l.filter p) +
      totalTrackedSize (l.filter (fun f => ! p f)) = totalTrackedSize l := by
  induction l with
  | nil => rfl
  | cons f rest ih =>
    by_cases hp : p f <;>
      simp only [List.filter_cons, hp, Bool.not_true, Bool.not_false,
        if_pos, if_neg, Bool.false_eq_true, not_false_eq_true,
        totalTrackedSize, List.map_cons, List.sum_cons, ite_true,
        ite_false] <;>
      unfold totalTrackedSize at ih <;> omega

/-- The pair returned by `ensureDiskSpace` when eviction triggers. -/
theorem ensureDiskSpace_eq_pos (files : List TempFileInfo) (bufLen : Nat)
    (hproj : totalTrackedSize files + bufLen > MAX_TEMP_SIZE) :
    ensureDiskSpace files bufLen =
      (files.filter (fun f =>
         ! ((sortByAccess files).take
             (evictCount
               (totalTrackedSize files + bufLen - MAX_TEMP_SIZE +
                 MAX_TEMP_SIZE / 10) (sortByAccess files))).any
           (fun g => g.path == f.path)),
       (sortByAccess files).take
         (evictCount
           (totalTrackedSize files + bufLen - MAX_TEMP_SIZE +
             MAX_TEMP_SIZE / 10) (sortByAccess files))) := by
  unfold ensureDiskSpace
  rw [if_pos hproj]

/-- C8. For any tracked-cache state with distinct file paths and any pending
write, `saveTempFile`'s headroom step keeps the total tracked size at or
below the 200 MiB cap plus the one pending write; the evicted files all have
last-access times no later than every retained file (least recently accessed
first); and when eviction triggers, it frees at least
`projected - cap + cap/10` (10% headroom below the cap) unless it runs out
of files, while every proper prefix of the eviction sequence frees strictly
less (it stops as soon as the headroom is restored). Since the state is
universally quantified, this holds after every save of any sequence of
saves. -/
theorem tempCache_eviction (files : List TempFileInfo) (bufLen : Nat)
    (newPath : Str) (now : Int) (src : Str)
    (hnd : (files.map (fun f => f.path)).Nodup) :
    totalTrackedSize (saveTempFile files bufLen newPath now src) ≤
      MAX_TEMP_SIZE + bufLen ∧
    (∀ e ∈ (ensureDiskSpace files bufLen).2,
      ∀ r ∈ (ensureDiskSpace files bufLen).1, e.accessed ≤ r.accessed) ∧
    (totalTrackedSize files + bufLen > MAX_TEMP_SIZE →
      (totalTrackedSize (ensureDiskSpace files bufLen).2 ≥
         totalTrackedSize files + bufLen - MAX_TEMP_SIZE +
           MAX_TEMP_SIZE / 10 ∨
       (ensureDiskSpace files bufLen).1 = []) ∧
      ∀ k < (ensureDiskSpace files bufLen).2.length,
        totalTrackedSize ((ensureDiskSpace files bufLen).2.take k) <
          totalTrackedSize files + bufLen - MAX_TEMP_SIZE +
            MAX_TEMP_SIZE / 10) := by
  by_cases hproj : totalTrackedSize files + bufLen > MAX_TEMP_SIZE
  · -- eviction branch
    have hM : MAX_TEMP_SIZE = 209715200 := rfl
    have ht : 0 < totalTrackedSize files + bufLen - MAX_TEMP_SIZE +
        MAX_TEMP_SIZE / 10 := by omega
    have hens := ensureDiskSpace_eq_pos files bufLen hproj
    obtain ⟨hmin, hfreed, hlen⟩ :=
      evictCount_spec (sortByAccess files)
        (totalTrackedSize files + bufLen - MAX_TEMP_SIZE +
          MAX_TEMP_SIZE / 10) ht
    have hperm := sortByAccess_perm files
    have hpw := sortByAccess_pairwise files
    -- name the evicted prefix and the surviving filter
    set tgt := totalTrackedSize files + bufLen - MAX_TEMP_SIZE +
      MAX_TEMP_SIZE / 10 with htgt
    set n := evictCount tgt (sortByAccess files) with hn
    set ev := (sortByAccess files).take n with hev
    set rem := files.filter (fun f => ! ev.any (fun g => g.path == f.path))
      with hrem
    have hmemev : ∀ f, f ∈ ev →
        (ev.any (fun g => g.path == f.path)) = true := by
      intro f hf
      exact List.any_eq_true.mpr ⟨f, hf, by simp⟩
    have hsubev : ev.Subperm files :=
      ((List.take_sublist n (sortByAccess files)).subperm).trans hperm.subperm
    have hEle : totalTrackedSize ev ≤ totalTrackedSize
        (files.filter (fun f => ev.any (fun g => g.path == f.path))) := by
      have hf : ev.filter (fun f => ev.any (fun g => g.path == f.path)) = ev :=
        List.filter_eq_self.mpr hmemev
      have := List.Subperm.filter
        (fun f => ev.any (fun g => g.path == f.path)) hsubev
      rw [hf] at this
      exact subperm_totalTracked_le _ _ this
    have hsplit := totalTracked_filter_split
      (fun f => ev.any (fun g => g.path == f.path)) files
    have hRle : totalTrackedSize rem + totalTrackedSize ev ≤
        totalTrackedSize files := by
      rw [hrem]
      omega
    have hremnil : n = (sortByAccess files).length → rem = [] := by
      intro hlenEq
      rw [hrem, List.filter_eq_nil_iff]
      intro f hf
      have hfs : f ∈ sortByAccess files := hperm.mem_iff.mpr hf
      have hfe : f ∈ ev := by
        rw [hev, hlenEq, List.take_length]
        exact hfs
      simp [hmemev f hfe]
    refine ⟨?_, ?_, ?_⟩
    · -- the cap-plus-pending bound
      have hsave : totalTrackedSize (saveTempFile files bufLen newPath now src)
          = totalTrackedSize rem + bufLen := by
        unfold saveTempFile
        rw [hens]
        simp [totalTrackedSize]
      rw [hsave]
      rcases hfreed with h | h
      · omega
      · have := hremnil h
        rw [this]
        simp [totalTrackedSize]
    · -- LRU order: every evicted file precedes every survivor
      intro e he r hr
      rw [hens] at he hr
      have hr1 : r ∈ files := List.mem_of_mem_filter hr
      have hr2 := List.of_mem_filter hr
      have hr3 : r ∈ sortByAccess files := hperm.mem_iff.mpr hr1
      have hdecomp : sortByAccess files = ev ++ (sortByAccess files).drop n :=
        (List.take_append_drop n (sortByAccess files)).symm
      have hr4 : r ∈ ev ++ (sortByAccess files).drop n := hdecomp ▸ hr3
      rcases List.mem_append.mp hr4 with hcase | hcase
      · exfalso
        rw [hmemev r hcase] at hr2
        simp at hr2
      · have hpw2 : (ev ++ (sortByAccess files).drop n).Pairwise accessLe :=
          hdecomp ▸ hpw
        exact (List.pairwise_append.mp hpw2).2.2 e he r hcase
    · -- stops exactly at the 10% headroom target
      intro _
      constructor
      · rcases hfreed with h | h
        · left
          rw [hens]
          exact h
        · right
          rw [hens]
          exact hremnil h
      · intro k hk
        rw [hens] at hk ⊢
        dsimp only at hk ⊢
        have hk2 : k < n := by
          have := List.length_take n (sortByAccess files)
          simp only [← hev] at this
          omega
        have htk : ev.take k = (sortByAccess files).take k := by
          rw [hev, List.take_take]
          congr 1
          omega
        rw [htk]
        exact hmin k hk2
  · -- no eviction: the projected size fits under the cap
    have hens : ensureDiskSpace files bufLen = (files, []) := by
      unfold ensureDiskSpace
      rw [if_neg hproj]
    refine ⟨?_, ?_, fun h => absurd h hproj⟩
    · unfold saveTempFile
      rw [hens]
      dsimp only
      have : totalTrackedSize (files ++ [⟨newPath, now, bufLen, now, src⟩]) =
          totalTrackedSize files + bufLen := by
        simp [totalTrackedSize]
      omega
    · intro e he
      rw [hens] at he
      simp at he

/-- A concrete pre-state for the C8 witness: two tracked 120 MB files with
distinct paths and distinct last-access times. -/
def c8Files : List TempFileInfo :=
  [⟨['a'], 0, 125829120, 5, []⟩, ⟨['b'], 0, 125829120, 3, []⟩]

/-- Witness for C8 at a concrete state: saving 50 MB on top of 240 MB of
tracked files triggers eviction. -/
theorem tempCache_eviction_witness :
    totalTrackedSize (saveTempFile c8Files 52428800 ['c'] 9 []) ≤
      MAX_TEMP_SIZE + 52428800 ∧
    (∀ e ∈ (ensureDiskSpace c8Files 52428800).2,
      ∀ r ∈ (ensureDiskSpace c8Files 52428800).1, e.accessed ≤ r.accessed) ∧
    (totalTrackedSize c8Files + 52428800 > MAX_TEMP_SIZE →
      (totalTrackedSize (ensureDiskSpace c8Files 52428800).2 ≥
         totalTrackedSize c8Files + 52428800 - MAX_TEMP_SIZE +
           MAX_TEMP_SIZE / 10 ∨
       (ensureDiskSpace c8Files 52428800).1 = []) ∧
      ∀ k < (ensureDiskSpace c8Files 52428800).2.length,
        totalTrackedSize ((ensureDiskSpace c8Files 52428800).2.take k) <
          totalTrackedSize c8Files + 52428800 - MAX_TEMP_SIZE +
            MAX_TEMP_SIZE / 10) :=
  tempCache_eviction c8Files 52428800 ['c'] 9 [] (by decide)

/-! ## String lemmas for the sanitizer claims (C5, C6)

The `..`-freeness invariant (`hasDD = false`) is pushed through every stage
of the sanitizer pipeline up to the length cap; the capped case is handled
separately because concatenating the truncated base with the extension can
re-create a `..` inside a single (slash-free) file name. -/

theorem hasDD_nil : hasDD [] = false := rfl

theorem hasDD_cons (c : Char) (l : Str) :
    hasDD (c :: l) = ((c = '.' : Bool) && startsDot l || hasDD l) := rfl

theorem startsDot_cons (c : Char) (l : Str) :
    startsDot (c :: l) = decide (c = '.') := rfl

theorem startsDot_iff (l : Str) : startsDot l = true ↔ ∃ v, l = '.' :: v := by
  cases l with
  | nil => simp [startsDot]
  | cons c v =>
    rw [startsDot_cons]
    constructor
    · intro h
      exact ⟨v, by rw [of_decide_eq_true h]⟩
    · rintro ⟨w, hw⟩
      rw [List.cons.injEq] at hw
      simp [hw.1]

theorem hasDD_iff (s : Str) :
    hasDD s = true ↔ ∃ u v, s = u ++ '.' :: '.' :: v := by
  induction s with
  | nil => simp [hasDD]
  | cons c rest ih =>
    rw [hasDD_cons, Bool.or_eq_true, Bool.and_eq_true, ih]
    constructor
    · rintro (⟨hc, hd⟩ | ⟨u, v, huv⟩)
      · obtain ⟨v, hv⟩ := (startsDot_iff rest).mp hd
        refine ⟨[], v, ?_⟩
        rw [hv, of_decide_eq_true hc]
        rfl
      · exact ⟨c :: u, v, by simp [huv]⟩
    · rintro ⟨u, v, huv⟩
      cases u with
      | nil =>
        simp only [List.nil_append, List.cons.injEq] at huv
        refine Or.inl ⟨decide_eq_true huv.1, ?_⟩
        rw [huv.2]
        rfl
      | cons x u =>
        simp only [List.cons_append, List.cons.injEq] at huv
        exact Or.inr ⟨u, v, huv.2⟩

theorem hasDD_mono {t s : Str} (h : t <:+: s) (hdd : hasDD t = true) :
    hasDD s = true := by
  obtain ⟨u, v, huv⟩ := (hasDD_iff t).mp hdd
  obtain ⟨a, b, hab⟩ := h
  refine (hasDD_iff s).mpr ⟨a ++ u, v ++ b, ?_⟩
  rw [← hab, huv]
  simp

theorem infix_no_dd {t s : Str} (h : t <:+: s) (hdd : hasDD s = false) :
    hasDD t = false := by
  by_contra hc
  rw [← Bool.not_eq_true] at hc
  push_neg at hc
  rw [hasDD_mono h hc] at hdd
  exact Bool.true_eq_false.mp hdd

theorem startsDot_replaceDotDot (rest : Str) (h : startsDot rest = false) :
    startsDot (replaceDotDot rest) = false := by
  cases rest with
  | nil => rfl
  | cons d r2 =>
    rw [startsDot_cons] at h
    have hd : d ≠ '.' := by simpa using h
    rw [replaceDotDot.eq_def]
    dsimp only
    rw [if_neg (by simp [hd]), startsDot_cons]
    simpa using hd

theorem replaceDotDot_no_dd (s : Str) : hasDD (replaceDotDot s) = false := by
  generalize hn : s.length = n
  induction n using Nat.strong_induction_on generalizing s with
  | _ n ih =>
    match s, hn with
    | [], _ => rfl
    | c :: rest, hn =>
      by_cases hc : c = '.' ∧ startsDot rest = true
      · obtain ⟨v, hv⟩ := (startsDot_iff rest).mp hc.2
        subst hv
        rw [replaceDotDot.eq_def]
        dsimp only
        rw [if_pos hc]
        have hlen : v.length < n := by
          rw [← hn]
          simp only [List.length_cons]
          omega
        have := ih v.length hlen v rfl
        simp [hasDD_cons, startsDot_cons, this]
      · rw [replaceDotDot.eq_def]
        dsimp only
        rw [if_neg hc]
        have hlen : rest.length < n := by
          rw [← hn]
          simp only [List.length_cons]
          omega
        have hrest := ih rest.length hlen rest rfl
        rw [hasDD_cons, hrest, Bool.or_false]
        by_cases hcd : c = '.'
        · have hsd : startsDot rest = false := by
            cases h2 : startsDot rest
            · rfl
            · exact absurd ⟨hcd, h2⟩ hc
          rw [startsDot_replaceDotDot rest hsd]
          simp
        · simp [hcd]

theorem splitSlash_ne_nil (s : Str) : splitSlash s ≠ [] := by
  cases s with
  | nil => simp [splitSlash]
  | cons c rest =>
    rw [splitSlash]
    rcases h : splitSlash rest with _ | ⟨seg, segs⟩ <;> simp <;> split <;> simp

/-- The first segment of `splitSlash` is a prefix of the string, the
remaining segments are infixes of it. -/
theorem splitSlash_head_pre (s : Str) : ∀ seg segs,
    splitSlash s = seg :: segs → seg <+: s ∧ ∀ t ∈ segs, t <:+: s := by
  induction s with
  | nil =>
    intro seg segs h
    rw [splitSlash] at h
    injection h with h1 h2
    subst h1
    subst h2
    exact ⟨ List.nil_prefix, by simp⟩
  | cons c rest ih =>
    intro seg segs h
    rcases h2 : splitSlash rest with _ | ⟨seg2, segs2⟩
    · exact absurd h2 (splitSlash_ne_nil rest)
    · obtain ⟨hpre, hinf⟩ := ih seg2 segs2 h2
      have htail : rest <:+ c :: rest := List.suffix_cons c rest
      rw [splitSlash, h2] at h
      dsimp only at h
      by_cases hc : c = '/'
      · rw [if_pos hc] at h
        injection h with h1 hrest
        subst h1
        refine ⟨ List.nil_prefix, ?_⟩
        intro t ht
        rw [← hrest] at ht
        rcases List.mem_cons.mp ht with rfl | ht2
        · exact (hpre.isInfix).trans htail.isInfix
        · exact (hinf t ht2).trans htail.isInfix
      · rw [if_neg hc] at h
        injection h with h1 hrest
        subst h1
        refine ⟨List.cons_prefix_cons.mpr ⟨rfl, hpre⟩, ?_⟩
        intro t ht
        rw [← hrest] at ht
        exact (hinf t ht).trans htail.isInfix

theorem mem_splitSlash_sub (s t : Str) (h : t ∈ splitSlash s) :
    t <:+: s := by
  rcases h2 : splitSlash s with _ | ⟨seg, segs⟩
  · exact absurd h2 (splitSlash_ne_nil s)
  · obtain ⟨hpre, hinf⟩ := splitSlash_head_pre s seg segs h2
    rw [h2] at h
    rcases List.mem_cons.mp h with rfl | h3
    · exact hpre.isInfix
    · exact hinf t h3

theorem mem_splitSlash_no_slash (s : Str) : ∀ t ∈ splitSlash s, '/' ∉ t := by
  induction s with
  | nil =>
    intro t ht
    rw [splitSlash] at ht
    rw [List.mem_singleton.mp ht]
    simp
  | cons c rest ih =>
    intro t ht
    rcases h2 : splitSlash rest with _ | ⟨seg2, segs2⟩
    · exact absurd h2 (splitSlash_ne_nil rest)
    · rw [splitSlash, h2] at ht
      dsimp only at ht
      by_cases hc : c = '/'
      · rw [if_pos hc] at ht
        rcases List.mem_cons.mp ht with rfl | ht2
        · simp
        · exact ih t (h2 ▸ ht2)
      · rw [if_neg hc] at ht
        rcases List.mem_cons.mp ht with rfl | ht2
        · intro hmem
          rcases List.mem_cons.mp hmem with h3 | h3
          · exact hc h3.symm
          · exact ih seg2 (h2 ▸ List.mem_cons_self _ _) h3
        · exact ih t (h2 ▸ List.mem_cons_of_mem _ ht2)

theorem splitSlash_no_slash (s : Str) (h : '/' ∉ s) : splitSlash s = [s] := by
  induction s with
  | nil => rfl
  | cons c rest ih =>
    have hc : c ≠ '/' := fun he => h (he ▸ List.mem_cons_self c rest)
    have hrest : '/' ∉ rest := fun hm => h (List.mem_cons_of_mem c hm)
    rw [splitSlash, ih hrest]
    dsimp only
    rw [if_neg hc]

theorem normSegs_mem (isAbs : Bool) : ∀ (segs acc : List Str) (t : Str),
    t ∈ normSegs isAbs acc segs → t ∈ acc ∨ t ∈ segs := by
  intro segs
  induction segs with
  | nil =>
    intro acc t ht
    rw [normSegs.eq_def] at ht
    dsimp only at ht
    exact Or.inl (List.mem_reverse.mp ht)
  | cons seg rest ih =>
    intro acc t ht
    rw [normSegs.eq_def] at ht
    dsimp only at ht
    split at ht
    · rcases ih acc t ht with h | h
      · exact Or.inl h
      · exact Or.inr (List.mem_cons_of_mem _ h)
    · split at ht
      · split at ht
        · split at ht
          · rcases ih _ t ht with h | h
            · rcases List.mem_cons.mp h with rfl | h2
              · exact Or.inr (List.mem_cons_self _ _)
              · exact Or.inl h2
            · exact Or.inr (List.mem_cons_of_mem _ h)
          · rcases ih _ t ht with h | h
            · exact Or.inl (List.mem_cons_of_mem _ h)
            · exact Or.inr (List.mem_cons_of_mem _ h)
        · split at ht
          · rcases ih _ t ht with h | h
            · exact absurd h (List.not_mem_nil t)
            · exact Or.inr (List.mem_cons_of_mem _ h)
          · rcases ih _ t ht with h | h
            · rcases List.mem_cons.mp h with rfl | h2
              · exact Or.inr (List.mem_cons_self _ _)
              · exact absurd h2 (List.not_mem_nil t)
            · exact Or.inr (List.mem_cons_of_mem _ h)
      · rcases ih _ t ht with h | h
        · rcases List.mem_cons.mp h with rfl | h2
          · exact Or.inr (List.mem_cons_self _ _)
          · exact Or.inl h2
        · exact Or.inr (List.mem_cons_of_mem _ h)

theorem startsDot_append_cons (a b : Str) (c : Char) (hc : c ≠ '.') :
    startsDot (a ++ c :: b) = startsDot a := by
  cases a with
  | nil => simp [startsDot_cons, startsDot, hc]
  | cons x a2 => rfl

theorem hasDD_append_slash (a b : Str) :
    hasDD (a ++ '/' :: b) = (hasDD a || hasDD b) := by
  induction a with
  | nil => simp [hasDD_cons, startsDot_cons, hasDD]
  | cons x a2 ih =>
    rw [List.cons_append, hasDD_cons, hasDD_cons, ih,
      startsDot_append_cons a2 b '/' (by decide)]
    cases hx : (decide (x = '.') && startsDot a2) <;>
      cases h2 : hasDD a2 <;> simp_all

theorem joinSlash_no_dd (L : List Str) (h : ∀ t ∈ L, hasDD t = false) :
    hasDD (joinSlash L) = false := by
  induction L with
  | nil => rfl
  | cons s rest ih =>
    cases rest with
    | nil => exact h s (List.mem_cons_self _ _)
    | cons t rest2 =>
      have hj : joinSlash (s :: t :: rest2) =
          s ++ '/' :: joinSlash (t :: rest2) := rfl
      rw [hj, hasDD_append_slash, h s (List.mem_cons_self _ _),
        ih (fun u hu => h u (List.mem_cons_of_mem _ hu))]
      rfl

theorem pathNormalize_no_dd (s : Str) (h : hasDD s = false) :
    hasDD (pathNormalize s) = false := by
  rw [pathNormalize]
  split
  · rfl
  · dsimp only
    have hcore : hasDD (joinSlash
        (normSegs (startsSlash s) [] (splitSlash s))) = false := by
      refine joinSlash_no_dd _ ?_
      intro t ht
      rcases normSegs_mem (startsSlash s) (splitSlash s) [] t ht with h2 | h2
      · exact absurd h2 (List.not_mem_nil t)
      · exact infix_no_dd (mem_splitSlash_sub s t h2) h
    split
    · split
      · rfl
      · split <;> rfl
    · rename_i hne
      split
      · split
        · rw [hasDD_cons]
          have : hasDD (joinSlash (normSegs (startsSlash s) []
              (splitSlash s)) ++ ['/']) = false := by
            have h2 := hasDD_append_slash (joinSlash (normSegs (startsSlash s)
              [] (splitSlash s))) []
            rw [hcore] at h2
            simpa using h2
          rw [this]
          simp [startsDot_cons]
        · rw [hasDD_cons, hcore]
          simp [startsDot_cons]
      · split
        · have h2 := hasDD_append_slash (joinSlash (normSegs (startsSlash s)
            [] (splitSlash s))) []
          rw [hcore] at h2
          simpa using h2
        · exact hcore

theorem dropWhile_eq_self_of (p : Char → Bool) (l : Str)
    (h : ∀ c ∈ l, p c = false) : l.dropWhile p = l := by
  cases l with
  | nil => rfl
  | cons c r =>
    rw [List.dropWhile_cons, h c (List.mem_cons_self _ _)]
    simp

theorem reverse_dropWhile_reverse_pre (p : Char → Bool) (t : Str) :
    (t.reverse.dropWhile p).reverse <+: t := by
  have hs : t.reverse.dropWhile p <:+ t.reverse := List.dropWhile_suffix p
  have := List.reverse_prefix.mpr hs
  rwa [List.reverse_reverse] at this

theorem dropTrailingSlashes_pre (t : Str) : dropTrailingSlashes t <+: t :=
  reverse_dropWhile_reverse_pre _ t

theorem jsTrim_sub (t : Str) : jsTrim t <:+: t := by
  rw [jsTrim]
  exact ((reverse_dropWhile_reverse_pre jsIsSpace
    (t.dropWhile jsIsSpace)).isInfix).trans
    (List.dropWhile_suffix jsIsSpace).isInfix

theorem stripDriveLetter_suffix (l : Str) : stripDriveLetter l <:+ l := by
  match l with
  | [] => exact List.suffix_refl _
  | [c] => exact List.suffix_refl _
  | c :: d :: rest =>
    rw [stripDriveLetter]
    split
    · exact (List.suffix_cons d rest).trans (List.suffix_cons c (d :: rest))
    · exact List.suffix_refl _

theorem preSanitize_no_dd (x : Str) : hasDD (preSanitize x) = false := by
  have h1 : hasDD (replaceDotDot x) = false := replaceDotDot_no_dd x
  have h2 : hasDD ((replaceDotDot x).dropWhile (fun c => c = '/')) = false :=
    infix_no_dd (List.dropWhile_suffix _).isInfix h1
  have h3 : hasDD (stripDriveLetter
      ((replaceDotDot x).dropWhile (fun c => c = '/'))) = false :=
    infix_no_dd (stripDriveLetter_suffix _).isInfix h2
  rw [preSanitize]
  split
  · rw [relativeFromRoot]
    exact infix_no_dd (dropTrailingSlashes_pre _).isInfix
      (infix_no_dd (List.dropWhile_suffix _).isInfix
        (pathNormalize_no_dd _ h3))
  · exact h3

theorem forbidden_ne_dot (c : Char) (h : c ≠ '.') :
    forbiddenToUnderscore c ≠ '.' := by
  rw [forbiddenToUnderscore]
  split
  · decide
  · exact h

theorem forbidden_dot : forbiddenToUnderscore '.' = '.' := rfl

theorem startsDot_map_forbidden (l : Str) (h : startsDot l = false) :
    startsDot (l.map forbiddenToUnderscore) = false := by
  cases l with
  | nil => rfl
  | cons c r =>
    rw [startsDot_cons] at h
    rw [List.map_cons, startsDot_cons]
    simpa using forbidden_ne_dot c (by simpa using h)

theorem map_forbidden_no_dd (l : Str) (h : hasDD l = false) :
    hasDD (l.map forbiddenToUnderscore) = false := by
  induction l with
  | nil => rfl
  | cons c r ih =>
    rw [hasDD_cons] at h
    rw [Bool.or_eq_false_iff, Bool.and_eq_false_iff] at h
    rw [List.map_cons, hasDD_cons, Bool.or_eq_false_iff,
      Bool.and_eq_false_iff]
    refine ⟨?_, ih h.2⟩
    rcases h.1 with hc | hd
    · by_cases hcd : c = '.'
      · rw [hcd] at hc
        simp at hc
      · exact Or.inl (by simpa using forbidden_ne_dot c hcd)
    · by_cases hcd : c = '.'
      · exact Or.inr (startsDot_map_forbidden r hd)
      · exact Or.inl (by simpa using forbidden_ne_dot c hcd)

theorem preTruncate_no_dd (y : Str) (h : hasDD y = false) :
    hasDD (preTruncate y) = false := by
  rw [preTruncate]
  exact infix_no_dd (jsTrim_sub _)
    (map_forbidden_no_dd _ (pathNormalize_no_dd y h))

/-! Structure of `basenameRaw`, `extname` and `basenameExt`. -/

theorem basenameRaw_suffix_dts (s : Str) :
    basenameRaw s <:+ dropTrailingSlashes s := by
  rw [basenameRaw]
  have hp : (dropTrailingSlashes s).reverse.takeWhile (fun c => c ≠ '/') <+:
      (dropTrailingSlashes s).reverse := List.takeWhile_prefix _
  have := List.reverse_suffix.mpr hp
  rwa [List.reverse_reverse] at this

theorem basenameRaw_sub (s : Str) : basenameRaw s <:+: s :=
  ((basenameRaw_suffix_dts s).isInfix).trans
    (dropTrailingSlashes_pre s).isInfix

theorem basenameRaw_no_slash (s : Str) : '/' ∉ basenameRaw s := by
  intro hmem
  rw [basenameRaw] at hmem
  have := List.mem_takeWhile_imp (List.mem_reverse.mp hmem)
  simp at this

theorem basenameRaw_eq_self (s : Str) (h : '/' ∉ s) : basenameRaw s = s := by
  have hdts : dropTrailingSlashes s = s := by
    rw [dropTrailingSlashes, dropWhile_eq_self_of _ _ ?_, List.reverse_reverse]
    intro c hc
    simp only [decide_eq_false_iff_not]
    intro hcs
    exact h (hcs ▸ List.mem_reverse.mp hc)
  rw [basenameRaw, hdts, List.takeWhile_eq_self_iff.mpr ?_,
    List.reverse_reverse]
  intro c hc
  simp only [ne_eq, decide_eq_true_eq]
  intro hcs
  exact h (hcs ▸ List.mem_reverse.mp hc)

theorem extname_suffix (s : Str) : extname s <:+ basenameRaw s := by
  rw [extname]
  split
  · exact List.nil_suffix
  · dsimp only
    split
    · exact List.nil_suffix
    · split
      · exact List.nil_suffix
      · exact List.drop_suffix _ _

theorem extname_sub (s : Str) : extname s <:+: s :=
  (extname_suffix s).isInfix.trans (basenameRaw_sub s)

theorem extname_no_slash (s : Str) : '/' ∉ extname s := by
  intro hmem
  exact basenameRaw_no_slash s ((extname_suffix s).subset hmem)

theorem basenameExt_pre (s ext : Str) :
    basenameExt s ext <+: basenameRaw s := by
  rw [basenameExt]
  split
  · exact List.take_prefix _ _
  · exact List.prefix_refl _

theorem basenameExt_no_slash (s ext : Str) : '/' ∉ basenameExt s ext := by
  intro hmem
  exact basenameRaw_no_slash s ((basenameExt_pre s ext).subset hmem)

theorem basenameExt_sub (s ext : Str) : basenameExt s ext <:+: s :=
  (basenameExt_pre s ext).isInfix.trans (basenameRaw_sub s)

theorem truncateName_eq_of_le (n : Str)
    (h : ¬ n.length > MAX_FILENAME_LENGTH) : truncateName n = n := by
  rw [truncateName, if_neg h]

theorem truncateName_no_slash (n : Str) (h : n.length > MAX_FILENAME_LENGTH) :
    '/' ∉ truncateName n := by
  rw [truncateName, if_pos h]
  dsimp only
  intro hmem
  rcases List.mem_append.mp hmem with h2 | h2
  · exact basenameExt_no_slash n _ (( List.take_prefix _ _).subset h2)
  · exact extname_no_slash n h2

/-- When `extname` returns a bare dot, the base name ends in a dot, has at
least two characters, and is not `..`. -/
theorem extname_eq_dot (n : Str) (h : extname n = ['.']) :
    basenameRaw n ≠ ['.', '.'] ∧ 2 ≤ (basenameRaw n).length ∧
      (basenameRaw n).drop ((basenameRaw n).length - 1) = ['.'] := by
  rw [extname] at h
  split at h
  · exact absurd h (by simp)
  · rename_i hne
    dsimp only at h
    generalize hA : (List.takeWhile (fun c => decide (c ≠ '.'))
      (List.reverse (basenameRaw n))).length = A at h
    split at h
    · exact absurd h (by simp)
    · rename_i hlenA
      split at h
      · exact absurd h (by simp)
      · rename_i hi
        have hdl : ((basenameRaw n).drop
            ((basenameRaw n).length - A - 1)).length = 1 := by
          rw [h]
          rfl
        rw [List.length_drop] at hdl
        refine ⟨hne, by omega, ?_⟩
        have h2 : (basenameRaw n).length - 1 =
            (basenameRaw n).length - A - 1 := by omega
        rw [h2]
        exact h

theorem hasDD_dotdot : hasDD ['.', '.'] = true := by decide

/-- The truncated-and-recombined name can contain `..` but is never the bare
traversal segment `..` itself. -/
theorem truncate_ne_dotdot (n : Str) (hdd : hasDD n = false)
    (hlen : n.length > MAX_FILENAME_LENGTH) :
    truncateName n ≠ ['.', '.'] := by
  rw [truncateName, if_pos hlen]
  dsimp only
  intro heq
  have hext_dd : hasDD (extname n) = false := infix_no_dd (extname_sub n) hdd
  have hbase_dd : hasDD (basenameExt n (extname n)) = false :=
    infix_no_dd (basenameExt_sub n _) hdd
  rcases htk : (basenameExt n (extname n)).take
      (MAX_FILENAME_LENGTH - (extname n).length) with _ | ⟨t0, T⟩
  · rw [htk, List.nil_append] at heq
    rw [heq, hasDD_dotdot] at hext_dd
    exact absurd hext_dd (by decide)
  · rcases T with _ | ⟨t1, T2⟩
    · -- the truncated base is a single character
      rw [htk] at heq
      simp only [List.cons_append, List.nil_append, List.cons.injEq] at heq
      obtain ⟨ht0, hext1⟩ := heq
      obtain ⟨hne2, hblen, hdrop⟩ := extname_eq_dot n hext1
      have hk : MAX_FILENAME_LENGTH - (extname n).length = 254 := by
        rw [hext1]
        rfl
      have htl : ((basenameExt n (extname n)).take 254).length = 1 := by
        rw [← hk, htk, ht0]
        rfl
      rw [List.length_take] at htl
      have hbase_eq : basenameExt n (extname n) = ['.'] := by
        have h5 : (basenameExt n (extname n)).take 254 =
            basenameExt n (extname n) := List.take_of_length_le (by omega)
        rw [← hk] at h5
        rw [h5, ht0] at htk
        exact htk
      rw [basenameExt] at hbase_eq
      split at hbase_eq
      · rename_i hcond
        have hextlen : (extname n).length = 1 := by rw [hext1]; rfl
        have hbl2 : ((basenameRaw n).take
            ((basenameRaw n).length - (extname n).length)).length = 1 := by
          rw [hbase_eq]
          rfl
        rw [List.length_take, hextlen] at hbl2
        have hblen2 : (basenameRaw n).length = 2 := by omega
        rcases hb : basenameRaw n with _ | ⟨b0, _ | ⟨b1, _ | _⟩⟩ <;>
          rw [hb] at hblen2 <;> simp at hblen2
        rw [hb, hextlen] at hbase_eq
        rw [hb] at hdrop
        simp at hbase_eq hdrop
        exact hne2 (by rw [hb, hbase_eq, hdrop])
      · rw [hbase_eq] at hblen
        simp at hblen
    · -- the truncated base keeps at least two characters: they are both dots
      have htk_dd : hasDD ((basenameExt n (extname n)).take
          (MAX_FILENAME_LENGTH - (extname n).length)) = false :=
        infix_no_dd ( List.take_prefix _ _).isInfix hbase_dd
      rw [htk] at heq htk_dd
      simp only [List.cons_append, List.cons.injEq] at heq
      obtain ⟨h0, h1, _⟩ := heq
      rw [hasDD_cons, h0, h1, startsDot_cons] at htk_dd
      simp at htk_dd

theorem hasDD_underscore_cons (l : Str) : hasDD ('_' :: l) = hasDD l := by
  rw [hasDD_cons]
  simp

theorem underscore_not_reserved (l : Str) : ('_' :: l) ∉ RESERVED_NAMES := by
  intro h
  have h2 : ∀ r ∈ RESERVED_NAMES, r.head? ≠ some '_' := by decide
  exact h2 _ h rfl

/-- The base name of an underscore-prefixed, slash-free name stays
underscore-prefixed (so prefixing defuses a reserved name). -/
theorem upperBaseName_cons_underscore (t : Str) (hns : '/' ∉ ('_' :: t)) :
    ∃ l, upperBaseName ('_' :: t) = '_' :: l := by
  have hbr : basenameRaw ('_' :: t) = '_' :: t := basenameRaw_eq_self _ hns
  rw [upperBaseName, basenameExt, hbr]
  split
  · rename_i hcond
    have hsuf : extname ('_' :: t) <:+ ('_' :: t) := by
      have := extname_suffix ('_' :: t)
      rwa [hbr] at this
    have hlt : (extname ('_' :: t)).length < ('_' :: t).length := by
      rcases Nat.lt_or_ge (extname ('_' :: t)).length
          (('_' :: t).length) with h | h
      · exact h
      · have hle := hsuf.length_le
        have heq2 := hsuf.eq_of_length (by omega)
        exact absurd heq2.symm hcond.1
    obtain ⟨m, hm⟩ : ∃ m, ('_' :: t).length - (extname ('_' :: t)).length
        = m + 1 := ⟨('_' :: t).length - (extname ('_' :: t)).length - 1,
          by simp only [List.length_cons] at *; omega⟩
    rw [hm, List.take_succ_cons, List.map_cons]
    exact ⟨_, rfl⟩
  · rw [List.map_cons]
    exact ⟨_, rfl⟩

theorem truncateName_length_le (n : Str) :
    (truncateName n).length ≤
      max MAX_FILENAME_LENGTH (extname n).length := by
  rw [truncateName]
  split
  · dsimp only
    rw [List.length_append, List.length_take]
    omega
  · rename_i h
    exact le_trans (by omega) (le_max_left _ _)

/-- C5 (amended). `sanitizeFileName` is total by construction, and for every
input the result contains no `..` traversal segment and — whenever the
result is free of directory separators — its base name is not a reserved
device name; the byte-length bound holds in the weakened form
`length ≤ 1 + max 255 (length of the extension of the pre-truncation name)`:
the 255 cap is exceeded when the extension alone is longer than the cap
(see the counterexample) or when the reserved-name underscore lands on a
255-character result. -/
theorem sanitizeFileName_safe (x : Str) :
    (∀ seg ∈ splitSlash (sanitizeFileName x), seg ≠ ['.', '.']) ∧
    ('/' ∉ sanitizeFileName x →
      upperBaseName (sanitizeFileName x) ∉ RESERVED_NAMES) ∧
    (sanitizeFileName x).length ≤
      1 + max MAX_FILENAME_LENGTH
        (extname (preTruncate (preSanitize x))).length := by
  have h3 : hasDD (preTruncate (preSanitize x)) = false :=
    preTruncate_no_dd _ (preSanitize_no_dd x)
  have hs : sanitizeFileName x =
      (if RESERVED_NAMES.contains
          (upperBaseName (truncateName (preTruncate (preSanitize x)))) then
        '_' :: truncateName (preTruncate (preSanitize x))
      else truncateName (preTruncate (preSanitize x))) := rfl
  refine ⟨?_, ?_, ?_⟩
  · intro seg hm heq
    subst heq
    by_cases htr : (preTruncate (preSanitize x)).length > MAX_FILENAME_LENGTH
    · have hnos : '/' ∉ sanitizeFileName x := by
        rw [hs]
        split
        · intro hmem
          rcases List.mem_cons.mp hmem with h4 | h4
          · exact absurd h4 (by decide)
          · exact truncateName_no_slash _ htr h4
        · exact truncateName_no_slash _ htr
      have hsp : splitSlash (sanitizeFileName x) = [sanitizeFileName x] :=
        splitSlash_no_slash _ hnos
      rw [hsp] at hm
      have hfin : sanitizeFileName x = ['.', '.'] :=
        (List.mem_singleton.mp hm).symm
      rw [hs] at hfin
      split at hfin
      · injection hfin with hf1 _
        exact absurd hf1 (by decide)
      · exact truncate_ne_dotdot _ h3 htr hfin
    · have htn : truncateName (preTruncate (preSanitize x)) =
          preTruncate (preSanitize x) := truncateName_eq_of_le _ htr
      have h4 : hasDD (sanitizeFileName x) = false := by
        rw [hs, htn]
        split
        · rw [hasDD_underscore_cons]
          exact h3
        · exact h3
      have h5 := hasDD_mono (mem_splitSlash_sub _ _ hm) hasDD_dotdot
      rw [h5] at h4
      exact absurd h4 (by decide)
  · intro hns
    rw [hs] at hns ⊢
    revert hns
    split <;> intro hns
    · obtain ⟨l, hl⟩ := upperBaseName_cons_underscore _ hns
      rw [hl]
      exact underscore_not_reserved l
    · rename_i hres
      intro hmem
      exact hres (List.elem_eq_true_of_mem hmem)
  · rw [hs]
    have hT := truncateName_length_le (preTruncate (preSanitize x))
    revert hT
    generalize max MAX_FILENAME_LENGTH
      (extname (preTruncate (preSanitize x))).length = M
    intro hT
    split
    · rw [List.length_cons]
      omega
    · omega

/-- C5 counterexamples, one per amended conjunct of the claim. First, a name
whose extension (final-dot suffix) is itself 301 characters long defeats the
255 cap: the truncation step computes a negative base budget (clamped to 0
by `substring`) and returns the whole extension, 301 characters. Second, the
reserved-name check only prefixes an underscore onto the whole path, so
`dir/CON.txt` sanitizes to `_dir/CON.txt`, whose base name is still the
reserved device name `CON`. Third, that underscore prefix pushes the
255-character name `CON.` + 251 x `j` to 256 characters, one past the cap. -/
theorem sanitizeFileName_unsafe_corners_cex :
    MAX_FILENAME_LENGTH <
      (sanitizeFileName ('a' :: '.' :: List.replicate 300 'b')).length ∧
    upperBaseName (sanitizeFileName ("dir/CON.txt".toList)) ∈
      RESERVED_NAMES ∧
    MAX_FILENAME_LENGTH <
      (sanitizeFileName ("CON.".toList ++ List.replicate 251 'j')).length := by
  refine ⟨?_, ?_, ?_⟩ <;> set_option maxRecDepth 10000 in decide

/-- Witness for C5 instantiating both quantified parts: a traversal payload
keeps only defanged `__` segments, and a reserved base name gets the
underscore prefix. -/
theorem sanitizeFileName_safe_witness :
    ("__".toList ≠ ['.', '.']) ∧
    upperBaseName (sanitizeFileName ("CON.txt".toList)) ∉ RESERVED_NAMES :=
  ⟨(sanitizeFileName_safe ("../../../etc/passwd".toList)).1 ("__".toList)
      (by decide),
   (sanitizeFileName_safe ("CON.txt".toList)).2.1 (by decide)⟩

/-! ## Claim C6: idempotence of the sanitizer -/

/-- C6 counterexample. `sanitize(" /a") = "/a"` (the trim runs after the
leading-slash strip, exposing a new leading slash) but
`sanitize("/a") = "a"`: the sanitizer is not idempotent. -/
theorem sanitizeFileName_not_idempotent_cex :
    sanitizeFileName (sanitizeFileName (" /a".toList)) ≠
      sanitizeFileName (" /a".toList) := by
  decide

theorem alnum_toNat (c : Char) (h : c.isAlpha = true ∨ c.isDigit = true) :
    (48 ≤ c.toNat ∧ c.toNat ≤ 57) ∨ (65 ≤ c.toNat ∧ c.toNat ≤ 90) ∨
    (97 ≤ c.toNat ∧ c.toNat ≤ 122) := by
  rcases h with h | h
  · rw [Char.isAlpha, Bool.or_eq_true] at h
    rcases h with h | h
    · rw [Char.isUpper, Bool.and_eq_true] at h
      obtain ⟨ha, hb⟩ := h
      rw [decide_eq_true_eq] at ha hb
      exact Or.inr (Or.inl ⟨ha, hb⟩)
    · rw [Char.isLower, Bool.and_eq_true] at h
      obtain ⟨ha, hb⟩ := h
      rw [decide_eq_true_eq] at ha hb
      exact Or.inr (Or.inr ⟨ha, hb⟩)
  · rw [Char.isDigit, Bool.and_eq_true] at h
    obtain ⟨ha, hb⟩ := h
    rw [decide_eq_true_eq] at ha hb
    exact Or.inl ⟨ha, hb⟩

theorem alnum_props (c : Char) (h : c.isAlpha = true ∨ c.isDigit = true) :
    c ≠ '.' ∧ c ≠ '/' ∧ c ≠ ':' ∧ isForbiddenChar c = false ∧
    jsIsSpace c = false := by
  have hr := alnum_toNat c h
  have hv : ∀ d : Char, c = d → c.toNat = d.toNat := fun d hd => by rw [hd]
  refine ⟨?_, ?_, ?_, ?_, ?_⟩
  · intro heq
    have := hv '.' heq
    simp only [show ('.').toNat = 46 from rfl] at this
    omega
  · intro heq
    have := hv '/' heq
    simp only [show ('/').toNat = 47 from rfl] at this
    omega
  · intro heq
    have := hv ':' heq
    simp only [show (':').toNat = 58 from rfl] at this
    omega
  · apply decide_eq_false
    intro hor
    rcases hor with hx | hx | hx | hx | hx | hx | hx | hx <;>
      first
        | (subst hx; exact absurd hr (by decide))
        | omega
  · apply decide_eq_false
    intro hor
    rcases hor with hx | hx | hx | hx | hx | hx | hx | hx | hx | hx | hx |
      hx | hx | hx | hx <;> omega

theorem replaceDotDot_eq_self (x : Str) (h : ∀ c ∈ x, c ≠ '.') :
    replaceDotDot x = x := by
  induction x with
  | nil => rfl
  | cons c rest ih =>
    rw [replaceDotDot.eq_def]
    dsimp only
    rw [if_neg]
    · rw [ih (fun d hd => h d (List.mem_cons_of_mem _ hd))]
    · intro hcond
      exact h c (List.mem_cons_self _ _) hcond.1

theorem startsSlash_eq_false (x : Str) (h : ∀ c ∈ x, c ≠ '/') :
    startsSlash x = false := by
  cases x with
  | nil => rfl
  | cons c r =>
    show decide (c = '/') = false
    simpa using h c (List.mem_cons_self _ _)

theorem stripDriveLetter_eq_self (x : Str) (h : ∀ c ∈ x, c ≠ ':') :
    stripDriveLetter x = x := by
  match x with
  | [] => rfl
  | [c] => rfl
  | c :: d :: rest =>
    rw [stripDriveLetter]
    split
    · rename_i hcond
      exact absurd hcond.2
        (h d (List.mem_cons_of_mem _ (List.mem_cons_self _ _)))
    · rfl

theorem pathNormalize_eq_self (x : Str) (hne : x ≠ [])
    (hslash : ∀ c ∈ x, c ≠ '/') (hdot : ∀ c ∈ x, c ≠ '.') :
    pathNormalize x = x := by
  have hns : '/' ∉ x := fun hm => hslash '/' hm rfl
  have hsp : splitSlash x = [x] := splitSlash_no_slash x hns
  have hxd : x ≠ ['.'] := fun heq =>
    hdot '.' (by rw [heq]; exact List.mem_cons_self _ _) rfl
  have hxdd : x ≠ ['.', '.'] := fun heq =>
    hdot '.' (by rw [heq]; exact List.mem_cons_self _ _) rfl
  have hnorm : normSegs (startsSlash x) [] [x] = [x] := by
    rw [normSegs.eq_def]
    dsimp only
    rw [if_neg (not_or.mpr ⟨hne, hxd⟩), if_neg hxdd, normSegs.eq_def]
    rfl
  have htr : ¬ (x.getLast? = some '/') := fun hgl =>
    hslash '/' (List.mem_of_mem_getLast? hgl) rfl
  rw [pathNormalize, if_neg hne]
  dsimp only
  rw [hsp, hnorm]
  have hj : joinSlash [x] = x := rfl
  rw [hj, if_neg hne, if_neg htr, startsSlash_eq_false x hslash]
  rfl

theorem jsTrim_eq_self (x : Str) (h : ∀ c ∈ x, jsIsSpace c = false) :
    jsTrim x = x := by
  rw [jsTrim, dropWhile_eq_self_of _ _ h,
    dropWhile_eq_self_of _ _ (fun c hc => h c (List.mem_reverse.mp hc)),
    List.reverse_reverse]

theorem map_forbidden_eq_self (x : Str)
    (h : ∀ c ∈ x, isForbiddenChar c = false) :
    x.map forbiddenToUnderscore = x := by
  have h2 : ∀ c ∈ x, forbiddenToUnderscore c = id c := fun c hc => by
    simp [forbiddenToUnderscore, h c hc]
  rw [List.map_congr_left h2, List.map_id]

theorem extname_eq_nil_no_dot (x : Str) (hns : '/' ∉ x)
    (hdot : ∀ c ∈ x, c ≠ '.') : extname x = [] := by
  have hxdd : x ≠ ['.', '.'] := fun heq =>
    hdot '.' (by rw [heq]; exact List.mem_cons_self _ _) rfl
  rw [extname, basenameRaw_eq_self x hns]
  rw [if_neg hxdd]
  dsimp only
  have hAW : x.reverse.takeWhile (fun c => decide (c ≠ '.')) = x.reverse :=
    List.takeWhile_eq_self_iff.mpr (fun c hc => by
      simpa using hdot c (List.mem_reverse.mp hc))
  rw [hAW, List.length_reverse, if_pos rfl]

theorem basenameExt_nil_eq (x : Str) (hne : x ≠ []) (hns : '/' ∉ x) :
    basenameExt x [] = x := by
  rw [basenameExt, basenameRaw_eq_self x hns]
  rw [if_pos ⟨hne, List.isSuffixOf_iff_suffix.mpr List.nil_suffix⟩]
  simp

/-- Plain alphanumeric names survive the whole sanitizer unchanged. -/
theorem sanitizeFileName_alnum_fixed (x : Str) (h1 : x ≠ [])
    (h2 : ∀ c ∈ x, c.isAlpha = true ∨ c.isDigit = true)
    (h3 : x.length ≤ MAX_FILENAME_LENGTH)
    (h4 : x.map Char.toUpper ∉ RESERVED_NAMES) :
    sanitizeFileName x = x := by
  have hdot : ∀ c ∈ x, c ≠ '.' := fun c hc => (alnum_props c (h2 c hc)).1
  have hslash : ∀ c ∈ x, c ≠ '/' := fun c hc => (alnum_props c (h2 c hc)).2.1
  have hcolon : ∀ c ∈ x, c ≠ ':' := fun c hc =>
    (alnum_props c (h2 c hc)).2.2.1
  have hforb : ∀ c ∈ x, isForbiddenChar c = false := fun c hc =>
    (alnum_props c (h2 c hc)).2.2.2.1
  have hspace : ∀ c ∈ x, jsIsSpace c = false := fun c hc =>
    (alnum_props c (h2 c hc)).2.2.2.2
  have hns : '/' ∉ x := fun hm => hslash '/' hm rfl
  have hpre : preSanitize x = x := by
    rw [preSanitize]
    rw [replaceDotDot_eq_self x hdot,
      dropWhile_eq_self_of _ _ (fun c hc => by simpa using hslash c hc),
      stripDriveLetter_eq_self x hcolon, startsSlash_eq_false x hslash]
    rfl
  have hPT : preTruncate x = x := by
    rw [preTruncate, pathNormalize_eq_self x h1 hslash hdot,
      map_forbidden_eq_self x hforb, jsTrim_eq_self x hspace]
  have hub : upperBaseName x = x.map Char.toUpper := by
    rw [upperBaseName, extname_eq_nil_no_dot x hns hdot,
      basenameExt_nil_eq x h1 hns]
  rw [sanitizeFileName, hpre, normalizeFileName]
  rw [hPT, truncateName_eq_of_le x (by omega), hub,
    if_neg (fun hcon => h4 (List.mem_of_elem_eq_true hcon))]

/-- C6 (amended). The sanitizer is not idempotent in general (see the
counterexample `" /a"`), but it is idempotent on names it leaves unchanged
— in particular on every nonempty alphanumeric name of at most 255
characters whose upper-cased form is not a reserved device name. -/
theorem sanitizeFileName_idem_alnum (x : Str) (h1 : x ≠ [])
    (h2 : ∀ c ∈ x, c.isAlpha = true ∨ c.isDigit = true)
    (h3 : x.length ≤ MAX_FILENAME_LENGTH)
    (h4 : x.map Char.toUpper ∉ RESERVED_NAMES) :
    sanitizeFileName (sanitizeFileName x) = sanitizeFileName x := by
  rw [sanitizeFileName_alnum_fixed x h1 h2 h3 h4]
  exact sanitizeFileName_alnum_fixed x h1 h2 h3 h4

/-- Witness for C6 at the concrete name `abc`. -/
theorem sanitizeFileName_idem_alnum_witness :
    sanitizeFileName (sanitizeFileName ("abc".toList)) =
      sanitizeFileName ("abc".toList) :=
  sanitizeFileName_idem_alnum ("abc".toList) (by decide) (by decide)
    (by decide) (by decide)

end MovieTool
